import Mathlib

/-!
Verification development for the microdns repository.

Shallow embedding of the store (crates/microdns-core/src/db.rs), the
recursor response cache (crates/microdns-recursor/src/cache.rs), the
load-balancer health state (crates/microdns-lb/src/state.rs), the DHCP
lease manager (crates/microdns-dhcp/src/lease.rs), the DHCPv4 packet
codec (crates/microdns-dhcp/src/v4/packet.rs) and the inbound AXFR
client loop (crates/microdns-auth/src/transfer.rs).

Embedding conventions:
- redb tables (string keys to JSON documents) are modelled as association
  lists with unique keys; `tblInsert` replaces the binding for an existing
  key in place and `tblRemove` drops it, matching the map semantics of a
  redb table.  List order models redb iteration order (ascending key
  order); concrete states used in counterexamples list their entries in
  that order.
- the `records_by_zone` table stores comma-joined record-id strings; ids
  are UUID strings (36 chars, no comma, no colon), so the joined string is
  represented by the list of ids it splits into, and the string key
  "zone_id:name:type" is represented by the triple of its fields (the
  zone-id segment has fixed width, so the prefix scan over
  "zone_id:" in the source coincides with filtering on the first field).
- Uuid values are modelled as strings; chrono timestamps as integers;
  u32 arithmetic is Nat arithmetic reduced mod 2^32 where the source can
  overflow.
-/

set_option maxHeartbeats 1600000
set_option maxRecDepth 8000

deriving instance DecidableEq for Except

namespace MicroDns

/-- Lookup in an association-list table (first binding wins; tables keep
their keys unique, mirroring a redb table). -/
def tblGet {κ υ : Type} [DecidableEq κ] : List (κ × υ) → κ → Option υ
  | [], _ => none
  | (k2, v) :: rest, k => if k2 = k then some v else tblGet rest k

/-- Insert or replace the binding for a key, in place (redb
`table.insert`). -/
def tblInsert {κ υ : Type} [DecidableEq κ] : List (κ × υ) → κ → υ → List (κ × υ)
  | [], k, v => [(k, v)]
  | (k2, v2) :: rest, k, v =>
    if k2 = k then (k, v) :: rest else (k2, v2) :: tblInsert rest k v

/-- Remove the binding for a key (redb `table.remove`). -/
def tblRemove {κ υ : Type} [DecidableEq κ] (t : List (κ × υ)) (k : κ) : List (κ × υ) :=
  t.filter (fun kv => kv.1 ≠ k)

/-- Remove the bindings for every key in a list, in order (a loop of
`table.remove` calls in the source). -/
def tblRemoveAll {κ υ : Type} [DecidableEq κ] (t : List (κ × υ)) (ks : List κ) : List (κ × υ) :=
  ks.foldl tblRemove t

/-- Option satisfies a predicate on its payload (used to state table
lookups decidably). -/
def OptIs {α : Type} (o : Option α) (p : α → Prop) : Prop :=
  ∃ a, o = some a ∧ p a

instance {α : Type} (o : Option α) (p : α → Prop) [DecidablePred p] :
    Decidable (OptIs o p) :=
  match o with
  | none => isFalse (fun h => by obtain ⟨a, ha, _⟩ := h; cases ha)
  | some a =>
    if h : p a then isTrue ⟨a, rfl, h⟩
    else isFalse (fun hh => by
      obtain ⟨b, hb, hp⟩ := hh
      cases hb
      exact h hp)

/-! ## Store model (crates/microdns-core/src/db.rs)

`Zone` keeps the fields the modelled operations read or write: the id,
the name and the SOA serial (`soa.serial`); `mname`, `rname`, `refresh`,
`retry`, `expire`, `minimum`, `default_ttl` and the timestamps are
carried through unchanged by every modelled operation and are omitted.
`DRecord` likewise keeps id, zone_id, name, the record-type discriminator
string produced by `record.data.record_type()`, the `enabled` flag and
the ttl; the rdata payload itself is never inspected by the store. -/

structure Zone where
  id : String
  name : String
  serial : Nat
deriving DecidableEq

structure DRecord where
  id : String
  zone_id : String
  name : String
  rtype : String
  enabled : Bool
  ttl : Nat
deriving DecidableEq

/-- The "zone_id:name:type" key of the records_by_zone table, as the
triple of its colon-separated fields. -/
structure IndexKey where
  zone_id : String
  name : String
  rtype : String
deriving DecidableEq

structure ReplMeta where
  zone_id : String
  zone_name : String
  source_peer_id : String
  source_serial : Nat
deriving DecidableEq

structure DbState where
  zones : List (String × Zone)
  zone_name_index : List (String × String)
  records : List (String × DRecord)
  records_by_zone : List (IndexKey × List String)
  replication_meta : List (String × ReplMeta)
deriving DecidableEq

def emptyDb : DbState :=
  { zones := [], zone_name_index := [], records := [],
    records_by_zone := [], replication_meta := [] }

inductive DbErr where
  | zoneNotFound (id : String)
  | recordNotFound (id : String)
  | duplicateZone (name : String)
deriving DecidableEq

def keyOf (r : DRecord) : IndexKey := ⟨r.zone_id, r.name, r.rtype⟩

/-- Shared body of `Db::create_record` and the insert phase of
`Db::replace_zone_records`: write the record row, then append its id to
the comma-joined list under its index key (creating the entry when
absent).  The source never constructs `Error::DuplicateRecord` here: an
existing row under the same id is silently overwritten and the id is
appended to the index list again. -/
def insertRecordRaw (recs : List (String × DRecord)) (bz : List (IndexKey × List String))
    (r : DRecord) : List (String × DRecord) × List (IndexKey × List String) :=
  let recs2 := tblInsert recs r.id r
  let ids2 := match tblGet bz (keyOf r) with
    | some ids => ids ++ [r.id]
    | none => [r.id]
  (recs2, tblInsert bz (keyOf r) ids2)

/-- Db::create_record. -/
def create_record (s : DbState) (r : DRecord) : DbState :=
  let p := insertRecordRaw s.records s.records_by_zone r
  { s with records := p.1, records_by_zone := p.2 }

/-- Db::update_record: overwrites the record row iff it exists; the
records_by_zone index is not touched (db.rs lines 325-339). -/
def update_record (s : DbState) (r : DRecord) : Except DbErr DbState :=
  match tblGet s.records r.id with
  | none => .error (.recordNotFound r.id)
  | some _ => .ok { s with records := tblInsert s.records r.id r }

/-- Db::delete_record: remove the row, then filter the id out of its
index entry, dropping the entry when the remaining list is empty. -/
def delete_record (s : DbState) (rid : String) : Except DbErr DbState :=
  match tblGet s.records rid with
  | none => .error (.recordNotFound rid)
  | some r =>
    let recs2 := tblRemove s.records rid
    let bz2 := match tblGet s.records_by_zone (keyOf r) with
      | some ids =>
        let ids2 := ids.filter (fun i => i ≠ rid)
        if ids2 = [] then tblRemove s.records_by_zone (keyOf r)
        else tblInsert s.records_by_zone (keyOf r) ids2
      | none => s.records_by_zone
    .ok { s with records := recs2, records_by_zone := bz2 }

/-- Shared delete phase of `Db::delete_zone`, `Db::delete_zone_records`
and `Db::replace_zone_records`: collect every records_by_zone entry whose
key is prefixed by the zone id, remove those entries and every record id
they list. -/
def purgeZoneRecords (recs : List (String × DRecord)) (bz : List (IndexKey × List String))
    (zid : String) : List (String × DRecord) × List (IndexKey × List String) :=
  let doomed := bz.filter (fun kv => kv.1.zone_id = zid)
  let bz2 := bz.filter (fun kv => ¬ kv.1.zone_id = zid)
  let recs2 := tblRemoveAll recs (doomed.flatMap Prod.snd)
  (recs2, bz2)

/-- Db::delete_zone: removes the zone row, its name-index entry, every
records_by_zone entry of the zone and every record listed there.  The
replication_meta table is not touched (that is done separately by
`delete_replicated_zone`). -/
def delete_zone (s : DbState) (zid : String) : Except DbErr DbState :=
  match tblGet s.zones zid with
  | none => .error (.zoneNotFound zid)
  | some z =>
    let p := purgeZoneRecords s.records s.records_by_zone zid
    .ok { s with zones := tblRemove s.zones zid,
                 zone_name_index := tblRemove s.zone_name_index z.name,
                 records := p.1, records_by_zone := p.2 }

/-- Db::delete_replication_meta. -/
def delete_replication_meta (s : DbState) (zid : String) : DbState :=
  { s with replication_meta := tblRemove s.replication_meta zid }

/-- Db::delete_replicated_zone: delete_zone then delete_replication_meta. -/
def delete_replicated_zone (s : DbState) (zid : String) : Except DbErr DbState :=
  match delete_zone s zid with
  | .error e => .error e
  | .ok s2 => .ok (delete_replication_meta s2 zid)

/-- Db::replace_zone_records: purge the zone's records, then run the
create_record body over the new set. -/
def replace_zone_records (s : DbState) (zid : String) (rs : List DRecord) : DbState :=
  let p := purgeZoneRecords s.records s.records_by_zone zid
  let q := rs.foldl (fun acc r => insertRecordRaw acc.1 acc.2 r) p
  { s with records := q.1, records_by_zone := q.2 }

/-- Db::query_records: index lookup, then fetch each listed id and keep
the enabled ones. -/
def query_records (s : DbState) (zid name rtype : String) : List DRecord :=
  match tblGet s.records_by_zone ⟨zid, name, rtype⟩ with
  | none => []
  | some ids => ids.filterMap (fun rid =>
      match tblGet s.records rid with
      | some r => if r.enabled then some r else none
      | none => none)

/-- Helper for trim_end_matches on the reversed character list: drop
leading dots. -/
def dropLeadingDots : List Char → List Char
  | [] => []
  | c :: rest => if c = '.' then dropLeadingDots rest else c :: rest

/-- Rust `s.trim_end_matches('.')`: remove every trailing dot. -/
def stripTrailingDots (s : String) : String :=
  String.mk (dropLeadingDots s.data.reverse).reverse

/-- Rust `s.strip_suffix(suf)`: the prefix before the suffix, when the
suffix matches. -/
def stripSuffixQ (s suf : String) : Option String :=
  if suf.data.isSuffixOf s.data then
    some (String.mk (s.data.take (s.data.length - suf.data.length)))
  else none

/-- Rust `s.ends_with(suf)`. -/
def endsWithB (s suf : String) : Bool := suf.data.isSuffixOf s.data

/-- Loop body of Db::query_fqdn: iterate the zones table in order and
return the query result of the FIRST zone that matches as apex or as a
suffix of the fqdn. -/
def queryFqdnGo (s : DbState) (f rtype : String) : List (String × Zone) → List DRecord
  | [] => []
  | (_, z) :: rest =>
    let zone_name := stripTrailingDots z.name
    if f = zone_name then query_records s z.id "@" rtype
    else match stripSuffixQ f ("." ++ zone_name) with
      | some pre => query_records s z.id pre rtype
      | none => queryFqdnGo s f rtype rest

/-- Db::query_fqdn (db.rs lines 430-445). -/
def query_fqdn (s : DbState) (fqdn rtype : String) : List DRecord :=
  queryFqdnGo s (stripTrailingDots fqdn) rtype s.zones

/-- Db::find_zone_for_fqdn (db.rs lines 652-668): linear scan keeping
the zone with the strictly longest name among apex/suffix matches. -/
def find_zone_for_fqdn (s : DbState) (fqdn : String) : Option Zone :=
  let f := stripTrailingDots fqdn
  s.zones.foldl
    (fun best kv =>
      let zone_name := stripTrailingDots kv.2.name
      if (f = zone_name || endsWithB f ("." ++ zone_name)) &&
         (match best with
          | none => true
          | some b => decide (b.name.length < kv.2.name.length)) then
        some kv.2
      else best)
    none

def U32 : Nat := 4294967296

/-- Db::increment_soa_serial (db.rs lines 398-426).  `yyyymmdd` is the
current UTC date formatted as YYYYMMDD; the source builds the string
"{today}00" and parses it as u32, falling back to `serial + 1` when the
parse overflows u32; `serial += 1` is u32 addition, which wraps in a
release build. -/
def increment_soa_serial (s : DbState) (zid : String) (yyyymmdd : Nat) :
    Except DbErr DbState :=
  match tblGet s.zones zid with
  | none => .error (.zoneNotFound zid)
  | some z =>
    let today_base := if yyyymmdd * 100 < U32 then yyyymmdd * 100 else (z.serial + 1) % U32
    let serial2 := if today_base ≤ z.serial then (z.serial + 1) % U32 else today_base
    .ok { s with zones := tblInsert s.zones zid { z with serial := serial2 } }

/-! ## Record-operation sequences and the records_by_zone invariant -/

inductive DbOp where
  | create (r : DRecord)
  | update (r : DRecord)
  | delete (rid : String)
  | replace (zid : String) (rs : List DRecord)
deriving DecidableEq

/-- Apply one operation; an operation that returns an error leaves the
store unchanged (the write transaction is dropped without commit). -/
def applyOp (s : DbState) : DbOp → DbState
  | .create r => create_record s r
  | .update r =>
    match update_record s r with
    | .ok s2 => s2
    | .error _ => s
  | .delete rid =>
    match delete_record s rid with
    | .ok s2 => s2
    | .error _ => s
  | .replace zid rs => replace_zone_records s zid rs

def runOps (s : DbState) (ops : List DbOp) : DbState := ops.foldl applyOp s

/-- The discipline real callers follow: create_record is only called
with a fresh record id, update_record never changes the indexed
(zone_id, name, type) triple of a record, and replace_zone_records gets
records with pairwise distinct ids each of which is either absent or
about to be purged with the zone. -/
def opWf (s : DbState) : DbOp → Prop
  | .create r => tblGet s.records r.id = none
  | .update r =>
    OptIs (tblGet s.records r.id) (fun old => keyOf old = keyOf r) ∨
      tblGet s.records r.id = none
  | .delete _ => True
  | .replace zid rs =>
    (rs.map (fun r => r.id)).Nodup ∧
    ∀ r ∈ rs,
      OptIs (tblGet s.records r.id) (fun old => old.zone_id = zid) ∨
        tblGet s.records r.id = none

instance (s : DbState) (op : DbOp) : Decidable (opWf s op) := by
  cases op <;> simp only [opWf] <;> infer_instance

def opsWf (s : DbState) : List DbOp → Prop
  | [] => True
  | op :: rest => opWf s op ∧ opsWf (applyOp s op) rest

instance instDecOpsWf : (s : DbState) → (ops : List DbOp) → Decidable (opsWf s ops)
  | _, [] => inferInstanceAs (Decidable True)
  | s, op :: rest =>
    have : Decidable (opsWf (applyOp s op) rest) := instDecOpsWf (applyOp s op) rest
    inferInstanceAs (Decidable (_ ∧ _))

/-- Every stored record row is keyed by its own id. -/
def RecordsKeyed (s : DbState) : Prop :=
  ∀ p ∈ s.records, p.2.id = p.1

/-- Table keys are unique (a property every redb table has). -/
def TblNodup (s : DbState) : Prop :=
  (s.records.map Prod.fst).Nodup ∧ (s.records_by_zone.map Prod.fst).Nodup

/-- Soundness half of spec invariant 2/3: every index entry is nonempty,
lists each id once, and every id it lists belongs to a stored record
whose (zone, name, type) triple is the entry's key. -/
def IndexSound (s : DbState) : Prop :=
  ∀ q ∈ s.records_by_zone, q.2 ≠ [] ∧ q.2.Nodup ∧
    ∀ rid ∈ q.2, OptIs (tblGet s.records rid) (fun r => keyOf r = q.1)

/-- Completeness half: every stored record is listed under its key. -/
def IndexComplete (s : DbState) : Prop :=
  ∀ p ∈ s.records, OptIs (tblGet s.records_by_zone (keyOf p.2)) (fun ids => p.1 ∈ ids)

/-- The records_by_zone index invariant of the claim: each entry lists
exactly the stored records with its key, listed ids always resolve, and
an entry disappears with its last id. -/
def IndexInv (s : DbState) : Prop :=
  RecordsKeyed s ∧ TblNodup s ∧ IndexSound s ∧ IndexComplete s

instance (s : DbState) : Decidable (RecordsKeyed s) := by
  unfold RecordsKeyed; infer_instance

instance (s : DbState) : Decidable (IndexSound s) := by
  unfold IndexSound; infer_instance

instance (s : DbState) : Decidable (IndexComplete s) := by
  unfold IndexComplete; infer_instance

instance (s : DbState) : Decidable (IndexInv s) := by
  unfold IndexInv TblNodup; infer_instance

/-! ## Recursor response cache (crates/microdns-recursor/src/cache.rs)

Instants are natural numbers of nanoseconds on the monotonic clock;
`Duration::from_secs(t)` is `t * NANOS_PER_SEC`.  The hit/miss counters
are not modelled (no claim mentions them). -/

def NANOS_PER_SEC : Nat := 1000000000

structure CacheKey where
  name : String
  rtype : Nat
  rclass : Nat
deriving DecidableEq

structure CacheEntry where
  response_bytes : List Nat
  inserted_at : Nat
  ttl : Nat
deriving DecidableEq

structure DnsCache where
  entries : List (CacheKey × CacheEntry)
  max_size : Nat
deriving DecidableEq

/-- CacheEntry::is_expired: `inserted_at.elapsed() >= ttl`. -/
def isExpired (now : Nat) (e : CacheEntry) : Bool :=
  e.ttl ≤ now - e.inserted_at

/-- DnsCache::get: miss on absent key; an expired entry is removed and
reported as a miss; otherwise a clone of the stored bytes is returned. -/
def cacheGet (c : DnsCache) (now : Nat) (k : CacheKey) : Option (List Nat) × DnsCache :=
  match tblGet c.entries k with
  | none => (none, c)
  | some e =>
    if isExpired now e then (none, { c with entries := tblRemove c.entries k })
    else (some e.response_bytes, c)

/-- DnsCache::evict_expired: retain the unexpired entries. -/
def evictExpired (c : DnsCache) (now : Nat) : DnsCache :=
  { c with entries := c.entries.filter (fun kv => !isExpired now kv.2) }

/-- DnsCache::insert: zero ttl is not cached; at capacity the expired
entries are evicted first; if still at capacity the new entry is
dropped. -/
def cacheInsert (c : DnsCache) (now : Nat) (k : CacheKey) (bytes : List Nat)
    (ttl_secs : Nat) : DnsCache :=
  if ttl_secs = 0 then c
  else
    let c1 := if c.max_size ≤ c.entries.length then evictExpired c now else c
    if c.max_size ≤ c1.entries.length then c1
    else { c1 with entries := tblInsert c1.entries k ⟨bytes, now, ttl_secs * NANOS_PER_SEC⟩ }

/-! ## LB health state (crates/microdns-lb/src/state.rs) -/

structure RecordHealth where
  healthy : Bool
  success_count : Nat
  failure_count : Nat
  healthy_threshold : Nat
  unhealthy_threshold : Nat
  zone_id : String
  record_name : String
  record_type : String
deriving DecidableEq

structure GroupKey where
  zone_id : String
  record_name : String
  record_type : String
deriving DecidableEq

def gkey (h : RecordHealth) : GroupKey := ⟨h.zone_id, h.record_name, h.record_type⟩

/-- The members of one failsafe group: the entries whose record shares
the (zone_id, name, type) triple. -/
def groupMembers (entries : List (String × RecordHealth)) (k : GroupKey) :
    List (String × RecordHealth) :=
  entries.filter (fun e => gkey e.2 = k)

/-- The group keys occurring in the state, first occurrence first (the
iteration order of the grouping HashMap in the source is unspecified;
every property proved below is insensitive to it). -/
def groupKeysOf (entries : List (String × RecordHealth)) : List GroupKey :=
  (entries.map (fun e => gkey e.2)).dedup

/-- Per-group body of the failsafe loop: when the group has more than
one member and all are unhealthy, the first member's id. -/
def failsafeStep (entries : List (String × RecordHealth)) (k : GroupKey) : Option String :=
  let m := groupMembers entries k
  if 1 < m.length ∧ ∀ e ∈ m, e.2.healthy = false then
    (m.head?).map Prod.fst
  else none

/-- HealthState::failsafe_records (state.rs lines 121-142): group by
(zone_id, name, type); for every group with more than one member, all
unhealthy, emit the first member's id. -/
def failsafe_records (entries : List (String × RecordHealth)) : List String :=
  (groupKeysOf entries).filterMap (failsafeStep entries)

/-! ## DHCP lease manager (crates/microdns-dhcp/src/lease.rs)

Timestamps are integers (chrono DateTime compared by order only). -/

inductive LeaseState where
  | active
  | expired
  | released
deriving DecidableEq

structure Lease where
  id : String
  ip_addr : String
  mac_addr : String
  state : LeaseState
  lease_end : Int
deriving DecidableEq

structure LeaseDb where
  leases : List (String × Lease)
  mac_lease_index : List (String × String)
  ip_lease_index : List (String × String)
deriving DecidableEq

/-- The purge condition of LeaseManager::purge_expired_leases (lease.rs
lines 157-167): ended before the cutoff AND state is Released or
Active.  State Expired is excluded by the conjunction in the source. -/
def purgeCond (cutoff : Int) (l : Lease) : Bool :=
  l.lease_end < cutoff && (l.state = LeaseState.released || l.state = LeaseState.active)

/-- LeaseManager::purge_expired_leases: collect (id, mac, ip) of every
lease satisfying the condition, then remove the lease row and the index
rows keyed by that mac and ip; returns the number purged. -/
def purge_expired_leases (s : LeaseDb) (now retention : Int) : Nat × LeaseDb :=
  let cutoff := now - retention
  let to_delete := s.leases.filterMap (fun p =>
    if purgeCond cutoff p.2 then some (p.1, p.2.mac_addr, p.2.ip_addr) else none)
  let leases2 := tblRemoveAll s.leases (to_delete.map (fun t => t.1))
  let mac2 := tblRemoveAll s.mac_lease_index (to_delete.map (fun t => t.2.1))
  let ip2 := tblRemoveAll s.ip_lease_index (to_delete.map (fun t => t.2.2))
  (to_delete.length, { leases := leases2, mac_lease_index := mac2, ip_lease_index := ip2 })

/-! ## DHCPv4 packet codec (crates/microdns-dhcp/src/v4/packet.rs)

Bytes are naturals below 256; u16/u32 fields are naturals recombined
from big-endian bytes exactly as `from_be_bytes` does. -/

def OPT_END : Nat := 255

def MAGIC_COOKIE : List Nat := [99, 130, 83, 99]

structure Ipv4 where
  o1 : Nat
  o2 : Nat
  o3 : Nat
  o4 : Nat
deriving DecidableEq

structure DhcpOption where
  code : Nat
  data : List Nat
deriving DecidableEq

structure DhcpPacket where
  op : Nat
  htype : Nat
  hlen : Nat
  hops : Nat
  xid : Nat
  secs : Nat
  flags : Nat
  ciaddr : Ipv4
  yiaddr : Ipv4
  siaddr : Ipv4
  giaddr : Ipv4
  chaddr : List Nat
  sname : List Nat
  file : List Nat
  options : List DhcpOption
deriving DecidableEq

def be16 (b0 b1 : Nat) : Nat := b0 * 256 + b1

def be32 (b0 b1 b2 b3 : Nat) : Nat := ((b0 * 256 + b1) * 256 + b2) * 256 + b3

def be16Bytes (x : Nat) : List Nat := [x / 256 % 256, x % 256]

def be32Bytes (x : Nat) : List Nat :=
  [x / 16777216 % 256, x / 65536 % 256, x / 256 % 256, x % 256]

def ipBytes (ip : Ipv4) : List Nat := [ip.o1, ip.o2, ip.o3, ip.o4]

/-- The option area written by DhcpPacket::to_bytes: each option pushes
its code; a non-END option also pushes its length byte (`len as u8`,
hence mod 256) and its data.  An END option contributes only the code
byte. -/
def optionBytes : List DhcpOption → List Nat
  | [] => []
  | o :: rest =>
    (if o.code ≠ OPT_END then o.code :: (o.data.length % 256) :: o.data else [o.code]) ++
      optionBytes rest

/-- DhcpPacket::to_bytes (packet.rs lines 132-173): the 240-byte fixed
header (offsets 0..240, cookie at 236..240), the serialized options, an
extra END byte when the last option is not END, zero padding up to 300
bytes. -/
def to_bytes (p : DhcpPacket) : List Nat :=
  let body :=
    [p.op, p.htype, p.hlen, p.hops] ++ be32Bytes p.xid ++ be16Bytes p.secs ++
      be16Bytes p.flags ++ ipBytes p.ciaddr ++ ipBytes p.yiaddr ++ ipBytes p.siaddr ++
      ipBytes p.giaddr ++ p.chaddr ++ p.sname ++ p.file ++ MAGIC_COOKIE ++
      optionBytes p.options ++
      (if (p.options.getLast?).map (fun o => o.code) ≠ some OPT_END then [OPT_END] else [])
  body ++ List.replicate (300 - body.length) 0

/-- Loop body of parse_options, with the remaining input length as
explicit fuel so that the recursion is structural (the loop index `i`
advances by at least one byte per iteration, so the initial length is
always enough fuel). -/
def parseOptionsGo : Nat → List Nat → List DhcpOption
  | _, [] => []
  | 0, _ :: _ => []
  | fuel + 1, code :: rest =>
    if code = OPT_END then [⟨OPT_END, []⟩]
    else if code = 0 then parseOptionsGo fuel rest
    else match rest with
      | [] => []
      | len :: rest2 =>
        if rest2.length < len then []
        else ⟨code, rest2.take len⟩ :: parseOptionsGo fuel (rest2.drop len)

/-- parse_options (packet.rs lines 218-258): walk the TLV area; END
emits a data-less END option and stops; a zero code byte is padding and
is skipped; a truncated length or body stops the walk. -/
def parse_options (data : List Nat) : List DhcpOption :=
  parseOptionsGo data.length data

/-- DhcpPacket::parse (packet.rs lines 79-129): at least 240 bytes, the
magic cookie at 236..240, fields at their fixed offsets, options parsed
from offset 240 (the source wraps the result in Option but
parse_options never fails).  The 28 scalar header bytes (offsets 0..27
in the source's direct indexing) are read positionally; `rest` starts
at offset 28, so chaddr is 28..44, sname 44..108, file 108..236 and the
option area starts at 240 = 28 + 212.  The final catch-all arm is
unreachable under the length guard. -/
def dhcp_parse (data : List Nat) : Option DhcpPacket :=
  if data.length < 240 then none
  else if (data.drop 236).take 4 ≠ MAGIC_COOKIE then none
  else
    match data with
    | op :: htype :: hlen :: hops :: x0 :: x1 :: x2 :: x3 :: s0 :: s1 :: f0 :: f1 ::
        c0 :: c1 :: c2 :: c3 :: y0 :: y1 :: y2 :: y3 :: v0 :: v1 :: v2 :: v3 ::
        g0 :: g1 :: g2 :: g3 :: rest =>
      some
        { op := op
          htype := htype
          hlen := hlen
          hops := hops
          xid := be32 x0 x1 x2 x3
          secs := be16 s0 s1
          flags := be16 f0 f1
          ciaddr := ⟨c0, c1, c2, c3⟩
          yiaddr := ⟨y0, y1, y2, y3⟩
          siaddr := ⟨v0, v1, v2, v3⟩
          giaddr := ⟨g0, g1, g2, g3⟩
          chaddr := rest.take 16
          sname := (rest.drop 16).take 64
          file := (rest.drop 80).take 128
          options := parse_options (rest.drop 212) }
    | _ => none

/-- Well-formed option list, as produced by the packet builders in the
server: a nonempty list terminated by a single data-less END option;
every earlier option has a nonzero, non-END code and at most 255 data
bytes, each below 256. -/
def OptsWf (os : List DhcpOption) : Prop :=
  os.getLast? = some ⟨OPT_END, []⟩ ∧
  ∀ o ∈ os.dropLast, o.code ≠ 0 ∧ o.code ≠ OPT_END ∧ o.data.length ≤ 255 ∧
    ∀ b ∈ o.data, b < 256

instance (os : List DhcpOption) : Decidable (OptsWf os) := by
  unfold OptsWf; infer_instance

/-- Structural validity of a packet as the serializer produces it: byte
fields in range, the fixed-size arrays at their BOOTP sizes, options
well-formed. -/
def PacketWf (p : DhcpPacket) : Prop :=
  p.op < 256 ∧ p.htype < 256 ∧ p.hlen < 256 ∧ p.hops < 256 ∧
  p.xid < 4294967296 ∧ p.secs < 65536 ∧ p.flags < 65536 ∧
  p.chaddr.length = 16 ∧ p.sname.length = 64 ∧ p.file.length = 128 ∧
  (∀ b ∈ p.chaddr, b < 256) ∧ (∀ b ∈ p.sname, b < 256) ∧ (∀ b ∈ p.file, b < 256) ∧
  OptsWf p.options

instance (p : DhcpPacket) : Decidable (PacketWf p) := by
  unfold PacketWf; infer_instance

/-! ## Inbound AXFR client loop (crates/microdns-auth/src/transfer.rs)

The TCP stream is modelled as the list of length-prefixed DNS messages
the peer sends, each already decoded: its wire length, whether its rcode
is NoError, and its answer section.  An answer is either a SOA record or
another record carried with the result of `from_rdata` conversion
(`some` relative record or `none` when the conversion fails and the
record is skipped). -/

def MAX_AXFR_RECORDS : Nat := 100000

def MAX_AXFR_BYTES : Nat := 104857600

/-- A converted record: relative name, rdata discriminator, ttl. -/
structure AxfrRec where
  rel_name : String
  rtag : String
  ttl : Nat
deriving DecidableEq

inductive AxfrAnswer where
  | soaRec (ttl : Nat) (serial : Nat)
  | other (conv : Option AxfrRec)
deriving DecidableEq

structure AxfrMsg where
  len : Nat
  no_error : Bool
  answers : List AxfrAnswer
deriving DecidableEq

structure AxfrState where
  soa_count : Nat
  parsed_records : List AxfrRec
  soa_serial : Option Nat
  default_ttl : Nat
  total_bytes : Nat
deriving DecidableEq

def axfrInit : AxfrState :=
  { soa_count := 0, parsed_records := [], soa_serial := none,
    default_ttl := 300, total_bytes := 0 }

/-- The inner `for answer in response.answers()` loop of axfr_pull
(transfer.rs lines 155-197): a SOA bumps the count, the first one fixes
soa_data and default_ttl, and the second breaks the loop; any other
record first checks the record cap against the number already parsed,
then pushes the converted record or skips an unconvertible one. -/
def processAnswers : AxfrState → List AxfrAnswer → Except String AxfrState
  | st, [] => .ok st
  | st, a :: rest =>
    match a with
    | .soaRec ttl serial =>
      let st1 := { st with soa_count := st.soa_count + 1 }
      let st2 := if st.soa_serial = none then
          { st1 with soa_serial := some serial, default_ttl := ttl }
        else st1
      if 2 ≤ st2.soa_count then .ok st2 else processAnswers st2 rest
    | .other conv =>
      if MAX_AXFR_RECORDS ≤ st.parsed_records.length then
        .error "AXFR exceeded max record count"
      else match conv with
        | some rec => processAnswers { st with parsed_records := st.parsed_records ++ [rec] } rest
        | none => processAnswers st rest

/-- The outer read loop of axfr_pull (transfer.rs lines 120-202):
end-of-stream is a read error unless two SOAs were already seen; a zero
length ends the stream; the message length is added to the byte total
and checked against the byte cap; a non-NoError rcode fails; otherwise
the answers are processed and a second SOA ends the loop. -/
def processMsgs : AxfrState → List AxfrMsg → Except String AxfrState
  | st, [] => if 2 ≤ st.soa_count then .ok st else .error "read error during AXFR"
  | st, m :: rest =>
    if m.len = 0 then .ok st
    else
      let st1 := { st with total_bytes := st.total_bytes + m.len }
      if MAX_AXFR_BYTES < st1.total_bytes then .error "AXFR exceeded max size"
      else if m.no_error = false then .error "AXFR error"
      else match processAnswers st1 m.answers with
        | .error e => .error e
        | .ok st2 => if 2 ≤ st2.soa_count then .ok st2 else processMsgs st2 rest

/-- ZoneTransfer::axfr_pull, receive phase: run the loop from the fresh
state and require a SOA to have been seen.  On `.ok` the zone is
upserted and exactly `parsed_records` is imported; on `.error` the
function returns before any store write. -/
def axfr_pull (msgs : List AxfrMsg) : Except String AxfrState :=
  match processMsgs axfrInit msgs with
  | .error e => .error e
  | .ok st => if st.soa_serial = none then .error "no SOA in AXFR response" else .ok st

/-- Count of non-SOA answers carried by a stream (what the claim calls
the stream's records). -/
def nonSoaCount (msgs : List AxfrMsg) : Nat :=
  (msgs.flatMap (fun m => m.answers)).countP (fun a =>
    match a with
    | .soaRec _ _ => false
    | .other _ => true)

/-! ## Concrete states used by witnesses and counterexamples -/

def zoneMax : Zone := { id := "z1", name := "example.com", serial := 4294967295 }

def dbC1 : DbState :=
  { emptyDb with zones := [("z1", zoneMax)], zone_name_index := [("example.com", "z1")] }

def zoneW : Zone := { id := "z1", name := "example.com", serial := 2024010100 }

def dbC1w : DbState :=
  { emptyDb with zones := [("z1", zoneW)], zone_name_index := [("example.com", "z1")] }

def rX : DRecord := { id := "X", zone_id := "z", name := "www", rtype := "A", enabled := true, ttl := 60 }

def rXrenamed : DRecord := { rX with name := "mail" }

def rY : DRecord := { rX with id := "Y" }

def rZ : DRecord := { rX with id := "W", name := "api" }

/-- A well-formed operation sequence exercising all four record
operations, used by the C2 witness. -/
def opsW : List DbOp :=
  [DbOp.create rX, DbOp.update { rX with ttl := 120 }, DbOp.create rY,
   DbOp.delete "X", DbOp.replace "z" [rZ]]

def zC : Zone := { id := "a", name := "com", serial := 1 }

def zE : Zone := { id := "b", name := "example.com", serial := 1 }

def r1C3 : DRecord :=
  { id := "r1", zone_id := "a", name := "www.example", rtype := "A", enabled := true, ttl := 60 }

def r2C3 : DRecord :=
  { id := "r2", zone_id := "b", name := "www", rtype := "A", enabled := true, ttl := 60 }

/-- Store with zones `com` and `example.com`; the zones table iterates
in key order, and the id of `com` sorts first. -/
def dbC3 : DbState :=
  { zones := [("a", zC), ("b", zE)],
    zone_name_index := [("com", "a"), ("example.com", "b")],
    records := [("r1", r1C3), ("r2", r2C3)],
    records_by_zone := [(⟨"a", "www.example", "A"⟩, ["r1"]), (⟨"b", "www", "A"⟩, ["r2"])],
    replication_meta := [] }

def k1 : CacheKey := { name := "example.com", rtype := 1, rclass := 1 }

def cacheC4 : DnsCache := { entries := [], max_size := 2 }

def zC5 : Zone := { id := "z1", name := "example.com", serial := 1 }

def rC5 : DRecord := { id := "r1", zone_id := "z1", name := "www", rtype := "A", enabled := true, ttl := 60 }

def metaC5 : ReplMeta :=
  { zone_id := "z1", zone_name := "example.com", source_peer_id := "peer-1", source_serial := 7 }

def dbC5 : DbState :=
  { zones := [("z1", zC5)],
    zone_name_index := [("example.com", "z1")],
    records := [("r1", rC5)],
    records_by_zone := [(⟨"z1", "www", "A"⟩, ["r1"])],
    replication_meta := [("z1", metaC5)] }

def dbC5post : DbState := { emptyDb with replication_meta := [("z1", metaC5)] }

def hUn : RecordHealth :=
  { healthy := false, success_count := 0, failure_count := 3, healthy_threshold := 1,
    unhealthy_threshold := 1, zone_id := "z", record_name := "www", record_type := "A" }

def entriesC6 : List (String × RecordHealth) :=
  [("i1", hUn), ("i2", hUn), ("i3", { hUn with record_name := "api" })]

def gkC6 : GroupKey := { zone_id := "z", record_name := "www", record_type := "A" }

def leaseExp : Lease :=
  { id := "l1", ip_addr := "10.0.0.1", mac_addr := "aa:bb", state := LeaseState.expired,
    lease_end := -10 }

def ldbC7 : LeaseDb :=
  { leases := [("l1", leaseExp)],
    mac_lease_index := [("aa:bb", "l1")],
    ip_lease_index := [("10.0.0.1", "l1")] }

def leaseOldA : Lease :=
  { id := "l1", ip_addr := "10.0.0.1", mac_addr := "aa", state := LeaseState.active,
    lease_end := -10 }

def leaseNewA : Lease :=
  { id := "l2", ip_addr := "10.0.0.2", mac_addr := "bb", state := LeaseState.active,
    lease_end := 100 }

def ldbC7w : LeaseDb :=
  { leases := [("l1", leaseOldA), ("l2", leaseNewA)],
    mac_lease_index := [("aa", "l1"), ("bb", "l2")],
    ip_lease_index := [("10.0.0.1", "l1"), ("10.0.0.2", "l2")] }

def pkt0 : DhcpPacket :=
  { op := 1, htype := 1, hlen := 6, hops := 0, xid := 305419896, secs := 0, flags := 32768,
    ciaddr := ⟨0, 0, 0, 0⟩, yiaddr := ⟨0, 0, 0, 0⟩, siaddr := ⟨0, 0, 0, 0⟩,
    giaddr := ⟨0, 0, 0, 0⟩,
    chaddr := [170, 187, 204, 221, 238, 255] ++ List.replicate 10 0,
    sname := List.replicate 64 0, file := List.replicate 128 0,
    options := [⟨53, [1]⟩, ⟨OPT_END, []⟩] }

def convRec : AxfrRec := { rel_name := "www", rtag := "A", ttl := 60 }

/-- A stream whose single message carries two SOAs and 100001 non-SOA
records, one of which fails rdata conversion. -/
def cexMsgs : List AxfrMsg :=
  [{ len := 100, no_error := true,
     answers := AxfrAnswer.soaRec 300 7 :: AxfrAnswer.other none ::
       (List.replicate 100000 (AxfrAnswer.other (some convRec)) ++
         [AxfrAnswer.soaRec 300 7]) }]

def smallMsg : AxfrMsg :=
  { len := 100, no_error := true,
    answers := [.soaRec 300 7, .other (some convRec), .soaRec 300 7] }

def smallOut : AxfrState :=
  { soa_count := 2, parsed_records := [convRec], soa_serial := some 7,
    default_ttl := 300, total_bytes := 100 }

/-! ## Association-table lemmas -/

theorem tblGet_insert_self {κ υ : Type} [DecidableEq κ] (t : List (κ × υ)) (k : κ) (v : υ) :
    tblGet (tblInsert t k v) k = some v := by
  induction t with
  | nil => simp [tblInsert, tblGet]
  | cons kv rest ih =>
    obtain ⟨k2, v2⟩ := kv
    by_cases h : k2 = k
    · simp [tblInsert, h, tblGet]
    · simp [tblInsert, h, tblGet, ih]

theorem tblGet_insert_ne {κ υ : Type} [DecidableEq κ] (t : List (κ × υ)) (k k2 : κ) (v : υ)
    (h : k2 ≠ k) : tblGet (tblInsert t k v) k2 = tblGet t k2 := by
  induction t with
  | nil => simp [tblInsert, tblGet, Ne.symm h]
  | cons kv rest ih =>
    obtain ⟨k3, v3⟩ := kv
    by_cases h3 : k3 = k
    · subst h3
      simp [tblInsert, tblGet, Ne.symm h]
    · by_cases h2 : k3 = k2
      · subst h2
        simp [tblInsert, h3, tblGet]
      · simp [tblInsert, h3, tblGet, h2, ih]

theorem tblGet_remove {κ υ : Type} [DecidableEq κ] (t : List (κ × υ)) (k k2 : κ) :
    tblGet (tblRemove t k) k2 = if k2 = k then none else tblGet t k2 := by
  induction t with
  | nil => simp [tblRemove, tblGet]
  | cons kv rest ih =>
    obtain ⟨k3, v3⟩ := kv
    simp only [tblRemove] at ih ⊢
    by_cases h3 : k3 = k
    · subst h3
      rw [List.filter_cons_of_neg (by simp)]
      rw [ih]
      by_cases h2 : k2 = k3
      · simp [h2]
      · simp [h2, tblGet, Ne.symm h2]
    · rw [List.filter_cons_of_pos (by simp [h3])]
      by_cases h2 : k3 = k2
      · subst h2
        simp [tblGet, h3]
      · simp only [ne_eq, decide_not] at ih ⊢
        simp [tblGet, h2, ih]

theorem tblGet_removeAll {κ υ : Type} [DecidableEq κ] (ks : List κ) (t : List (κ × υ)) (k : κ) :
    tblGet (tblRemoveAll t ks) k = if k ∈ ks then none else tblGet t k := by
  induction ks generalizing t with
  | nil => simp [tblRemoveAll]
  | cons k0 rest ih =>
    simp only [tblRemoveAll, List.foldl_cons] at ih ⊢
    rw [ih (tblRemove t k0), tblGet_remove]
    by_cases h0 : k = k0
    · simp [h0]
    · simp [h0, List.mem_cons]

theorem tblGet_mem {κ υ : Type} [DecidableEq κ] {t : List (κ × υ)} {k : κ} {v : υ}
    (h : tblGet t k = some v) : (k, v) ∈ t := by
  induction t with
  | nil => simp [tblGet] at h
  | cons kv rest ih =>
    obtain ⟨k2, v2⟩ := kv
    by_cases h2 : k2 = k
    · subst h2
      simp [tblGet] at h
      simp [h]
    · simp [tblGet, h2] at h
      exact List.mem_cons_of_mem _ (ih h)

theorem tblGet_eq_none_iff {κ υ : Type} [DecidableEq κ] (t : List (κ × υ)) (k : κ) :
    tblGet t k = none ↔ k ∉ t.map Prod.fst := by
  induction t with
  | nil => simp [tblGet]
  | cons kv rest ih =>
    obtain ⟨k2, v2⟩ := kv
    by_cases h2 : k2 = k
    · subst h2
      simp [tblGet]
    · simp [tblGet, h2, ih, Ne.symm h2]

theorem tblGet_of_mem {κ υ : Type} [DecidableEq κ] {t : List (κ × υ)} {k : κ} {v : υ}
    (hnd : (t.map Prod.fst).Nodup) (hm : (k, v) ∈ t) : tblGet t k = some v := by
  induction t with
  | nil => simp at hm
  | cons kv rest ih =>
    obtain ⟨k2, v2⟩ := kv
    simp only [List.map_cons, List.nodup_cons] at hnd
    rcases List.mem_cons.1 hm with h | h
    · cases h
      simp [tblGet]
    · have hne : k2 ≠ k := by
        intro hh
        subst hh
        exact hnd.1 (List.mem_map_of_mem Prod.fst h)
      simp only [tblGet, if_neg hne]
      exact ih hnd.2 h

theorem mem_tblInsert {κ υ : Type} [DecidableEq κ] {t : List (κ × υ)} {k : κ} {v : υ}
    {p : κ × υ} (h : p ∈ tblInsert t k v) : p = (k, v) ∨ p ∈ t := by
  induction t with
  | nil =>
    simp [tblInsert] at h
    simp [h]
  | cons kv rest ih =>
    obtain ⟨k2, v2⟩ := kv
    by_cases h2 : k2 = k
    · simp [tblInsert, h2] at h
      rcases h with h | h
      · exact Or.inl (by simp [h])
      · exact Or.inr (List.mem_cons_of_mem _ h)
    · simp only [tblInsert, if_neg h2, List.mem_cons] at h
      rcases h with h | h
      · exact Or.inr (by simp [h])
      · rcases ih h with h | h
        · exact Or.inl h
        · exact Or.inr (List.mem_cons_of_mem _ h)

theorem mem_tblInsert_of_ne {κ υ : Type} [DecidableEq κ] {t : List (κ × υ)} {k : κ} {v : υ}
    {p : κ × υ} (h : p ∈ t) (hne : p.1 ≠ k) : p ∈ tblInsert t k v := by
  induction t with
  | nil => simp at h
  | cons kv rest ih =>
    obtain ⟨k2, v2⟩ := kv
    by_cases h2 : k2 = k
    · subst h2
      have heq : tblInsert ((k2, v2) :: rest) k2 v = (k2, v) :: rest := by
        simp [tblInsert]
      rw [heq]
      rcases List.mem_cons.1 h with h0 | h0
      · exfalso
        apply hne
        rw [h0]
      · exact List.mem_cons_of_mem _ h0
    · simp only [tblInsert, if_neg h2, List.mem_cons]
      rcases List.mem_cons.1 h with h0 | h0
      · exact Or.inl h0
      · exact Or.inr (ih h0)

theorem self_mem_tblInsert {κ υ : Type} [DecidableEq κ] (t : List (κ × υ)) (k : κ) (v : υ) :
    (k, v) ∈ tblInsert t k v :=
  tblGet_mem (tblGet_insert_self t k v)

theorem mem_tblRemove_iff {κ υ : Type} [DecidableEq κ] {t : List (κ × υ)} {k : κ}
    {p : κ × υ} : p ∈ tblRemove t k ↔ p ∈ t ∧ p.1 ≠ k := by
  simp [tblRemove, List.mem_filter]

theorem mem_tblRemoveAll_iff {κ υ : Type} [DecidableEq κ] {ks : List κ} {t : List (κ × υ)}
    {p : κ × υ} : p ∈ tblRemoveAll t ks ↔ p ∈ t ∧ p.1 ∉ ks := by
  induction ks generalizing t with
  | nil => simp [tblRemoveAll]
  | cons k0 rest ih =>
    simp only [tblRemoveAll, List.foldl_cons] at ih ⊢
    rw [ih, mem_tblRemove_iff]
    simp only [List.mem_cons]
    tauto

theorem keys_tblInsert_nodup {κ υ : Type} [DecidableEq κ] {t : List (κ × υ)} (k : κ) (v : υ)
    (h : (t.map Prod.fst).Nodup) : ((tblInsert t k v).map Prod.fst).Nodup := by
  induction t with
  | nil => simp [tblInsert]
  | cons kv rest ih =>
    obtain ⟨k2, v2⟩ := kv
    simp only [List.map_cons, List.nodup_cons] at h
    by_cases h2 : k2 = k
    · subst h2
      have heq : tblInsert ((k2, v2) :: rest) k2 v = (k2, v) :: rest := by
        simp [tblInsert]
      rw [heq]
      simp only [List.map_cons, List.nodup_cons]
      exact h
    · simp only [tblInsert, if_neg h2, List.map_cons, List.nodup_cons]
      refine ⟨?_, ih h.2⟩
      intro hmem
      rcases List.mem_map.1 hmem with ⟨p, hp, hpk⟩
      rcases mem_tblInsert hp with h0 | h0
      · rw [h0] at hpk
        exact h2 hpk.symm
      · apply h.1
        rw [← hpk]
        exact List.mem_map_of_mem Prod.fst h0

theorem keys_tblRemove_nodup {κ υ : Type} [DecidableEq κ] {t : List (κ × υ)} (k : κ)
    (h : (t.map Prod.fst).Nodup) : ((tblRemove t k).map Prod.fst).Nodup :=
  (h.sublist (List.Sublist.map Prod.fst (List.filter_sublist t)))

theorem keys_tblRemoveAll_nodup {κ υ : Type} [DecidableEq κ] (ks : List κ)
    {t : List (κ × υ)} (h : (t.map Prod.fst).Nodup) :
    ((tblRemoveAll t ks).map Prod.fst).Nodup := by
  induction ks generalizing t with
  | nil => exact h
  | cons k0 rest ih =>
    simp only [tblRemoveAll, List.foldl_cons] at ih ⊢
    exact ih (keys_tblRemove_nodup k0 h)

/-! ## Helper lemmas on lists -/

theorem length_filterMap_ite {α β : Type} (l : List α) (c : α → Bool) (f : α → β) :
    (l.filterMap (fun a => if c a then some (f a) else none)).length = l.countP c := by
  induction l with
  | nil => simp
  | cons a rest ih =>
    by_cases h : c a
    · simp [List.filterMap_cons, h, ih, List.countP_cons]
    · simp [List.filterMap_cons, h, ih, List.countP_cons]

theorem mem_filterMap_ite {α β : Type} (l : List α) (c : α → Bool) (f : α → β) (x : β) :
    x ∈ l.filterMap (fun a => if c a then some (f a) else none) ↔
      ∃ a ∈ l, c a = true ∧ x = f a := by
  simp only [List.mem_filterMap]
  constructor
  · rintro ⟨a, ha, hx⟩
    by_cases h : c a
    · rw [if_pos h] at hx
      exact ⟨a, ha, h, (Option.some_inj.1 hx).symm⟩
    · rw [if_neg h] at hx
      cases hx
  · rintro ⟨a, ha, hc, hx⟩
    exact ⟨a, ha, by rw [if_pos hc, hx]⟩

/-! ## C1: increment_soa_serial -/

/-- C1 (amended): for every zone in the store whose current serial is
below u32::MAX and every date whose YYYYMMDD*100 base fits in u32,
increment_soa_serial writes back exactly serial = max(current + 1, base)
and the serial strictly increases (hence never decreases across any
sequence of calls while the serial stays below u32::MAX).  The original
claim fails at serial = u32::MAX, where the u32 increment wraps to 0. -/
theorem C1_increment_soa_serial_amended (s : DbState) (zid : String) (z : Zone)
    (yyyymmdd : Nat) (hz : tblGet s.zones zid = some z)
    (hser : z.serial < U32 - 1) (hbase : yyyymmdd * 100 < U32) :
    increment_soa_serial s zid yyyymmdd =
      .ok ({ s with
        zones := tblInsert s.zones zid { z with serial := max (z.serial + 1) (yyyymmdd * 100) } }) ∧
    z.serial < max (z.serial + 1) (yyyymmdd * 100) := by
  have hmod : (z.serial + 1) % U32 = z.serial + 1 := by
    apply Nat.mod_eq_of_lt
    have : (2 : Nat) ≤ U32 := by decide
    omega
  constructor
  · unfold increment_soa_serial
    rw [hz]
    simp only [if_pos hbase]
    by_cases h : yyyymmdd * 100 ≤ z.serial
    · have hmax : max (z.serial + 1) (yyyymmdd * 100) = z.serial + 1 :=
        Nat.max_eq_left (Nat.le_succ_of_le h)
      simp only [if_pos h, hmod, hmax]
    · have hlt : z.serial < yyyymmdd * 100 := Nat.lt_of_not_le h
      have hmax : max (z.serial + 1) (yyyymmdd * 100) = yyyymmdd * 100 :=
        Nat.max_eq_right hlt
      simp only [if_neg h, hmax]
  · exact Nat.lt_of_lt_of_le (Nat.lt_succ_self _) (Nat.le_max_left _ _)

/-- C1 witness: a zone at serial 2024010100 incremented on 2026-10-12. -/
theorem C1_increment_soa_serial_witness :
    increment_soa_serial dbC1w "z1" 20261012 =
      .ok ({ dbC1w with
        zones := tblInsert dbC1w.zones "z1" { zoneW with serial := max (zoneW.serial + 1) (20261012 * 100) } }) ∧
    zoneW.serial < max (zoneW.serial + 1) (20261012 * 100) :=
  C1_increment_soa_serial_amended dbC1w "z1" zoneW 20261012 (by decide) (by decide) (by decide)

/-- C1 counterexample: with the stored serial at u32::MAX = 4294967295
(which is at or above the date base), the u32 increment wraps and the
serial is written back as 0 — not max(current + 1, base), and strictly
below its previous value, so a write can decrease the serial. -/
theorem C1_counterexample :
    increment_soa_serial dbC1 "z1" 20261012 =
      .ok ({ dbC1 with zones := [("z1", { zoneMax with serial := 0 })] }) ∧
    (0 : Nat) ≠ max (4294967295 + 1) (20261012 * 100) ∧
    (0 : Nat) < zoneMax.serial := by
  refine ⟨by decide, by decide, by decide⟩

/-! ## C3: query_fqdn zone choice -/

/-- C3: query_fqdn does not query the longest matching zone.  In dbC3
the fqdn www.example.com is covered by both stored zones; the source's
own find_zone_for_fqdn resolves it to example.com (the longest zone
suffix, which spec section 9(a) calls the intended behavior), but
query_fqdn answers from zone com — the first match in zone-table
iteration order — with relative name www.example, returning r1C3 where
the claim requires the records of example.com for name www (r2C3). -/
theorem C3_query_fqdn_first_match_bug :
    query_fqdn dbC3 "www.example.com" "A" = [r1C3] ∧
    find_zone_for_fqdn dbC3 "www.example.com" = some zE ∧
    query_records dbC3 zE.id "www" "A" = [r2C3] ∧
    query_fqdn dbC3 "www.example.com" "A" ≠ query_records dbC3 zE.id "www" "A" := by
  refine ⟨by decide, by decide, by decide, by decide⟩

/-! ## C10: duplicate create_record -/

/-- C10: create_record has no duplicate check (Error::DuplicateRecord is
never produced): re-running create_record with the same record succeeds,
overwrites the record row, and appends the id to the records_by_zone
entry again, leaving it listed twice (two more occurrences than before). -/
theorem C10_create_record_duplicate (s : DbState) (r : DRecord) :
    tblGet (create_record (create_record s r) r).records r.id = some r ∧
    ((tblGet (create_record (create_record s r) r).records_by_zone (keyOf r)).getD []).count r.id
      = ((tblGet s.records_by_zone (keyOf r)).getD []).count r.id + 2 := by
  constructor
  · simp [create_record, insertRecordRaw, tblGet_insert_self]
  · simp only [create_record, insertRecordRaw]
    cases hbz : tblGet s.records_by_zone (keyOf r) with
    | none => simp [tblGet_insert_self, List.count_cons]
    | some ids => simp [tblGet_insert_self, List.count_append, List.count_cons]

/-! ## C7: purge_expired_leases -/

/-- C7 counterexample: a lease in state Expired whose lease_end is far
below the cutoff is not purged (count 0, row still present), because the
source's condition only accepts states Released and Active. -/
theorem C7_counterexample :
    purge_expired_leases ldbC7 0 5 = (0, ldbC7) ∧
    leaseExp.lease_end < 0 - 5 ∧
    tblGet (purge_expired_leases ldbC7 0 5).2.leases "l1" = some leaseExp := by
  refine ⟨by decide, by decide, by decide⟩

/-- C7 (amended): purge_expired_leases deletes a lease together with the
index rows keyed by its MAC and IP exactly when lease_end < now -
retention AND its state is Active or Released (state Expired is kept),
and returns the number of leases so deleted; untouched leases keep their
rows and index entries (stated for states whose lease ids, MACs and IPs
are pairwise distinct, as the indexes presuppose). -/
theorem C7_purge_expired_leases_amended (s : LeaseDb) (now retention : Int)
    (hids : (s.leases.map Prod.fst).Nodup)
    (hmacs : (s.leases.map (fun p => p.2.mac_addr)).Nodup)
    (hips : (s.leases.map (fun p => p.2.ip_addr)).Nodup) :
    (purge_expired_leases s now retention).1 =
      s.leases.countP (fun p => purgeCond (now - retention) p.2) ∧
    ∀ p ∈ s.leases,
      (purgeCond (now - retention) p.2 = true →
        tblGet (purge_expired_leases s now retention).2.leases p.1 = none ∧
        tblGet (purge_expired_leases s now retention).2.mac_lease_index p.2.mac_addr = none ∧
        tblGet (purge_expired_leases s now retention).2.ip_lease_index p.2.ip_addr = none) ∧
      (purgeCond (now - retention) p.2 = false →
        tblGet (purge_expired_leases s now retention).2.leases p.1 = some p.2 ∧
        tblGet (purge_expired_leases s now retention).2.mac_lease_index p.2.mac_addr
          = tblGet s.mac_lease_index p.2.mac_addr ∧
        tblGet (purge_expired_leases s now retention).2.ip_lease_index p.2.ip_addr
          = tblGet s.ip_lease_index p.2.ip_addr) := by
  constructor
  · simp only [purge_expired_leases]
    exact length_filterMap_ite _ _ _
  · intro p hp
    simp only [purge_expired_leases, tblGet_removeAll]
    constructor
    · intro hcond
      refine ⟨?_, ?_, ?_⟩
      · rw [if_pos]
        simp only [List.mem_map]
        exact ⟨(p.1, p.2.mac_addr, p.2.ip_addr),
          (mem_filterMap_ite _ _ _ _).2 ⟨p, hp, hcond, rfl⟩, rfl⟩
      · rw [if_pos]
        simp only [List.mem_map]
        exact ⟨(p.1, p.2.mac_addr, p.2.ip_addr),
          (mem_filterMap_ite _ _ _ _).2 ⟨p, hp, hcond, rfl⟩, rfl⟩
      · rw [if_pos]
        simp only [List.mem_map]
        exact ⟨(p.1, p.2.mac_addr, p.2.ip_addr),
          (mem_filterMap_ite _ _ _ _).2 ⟨p, hp, hcond, rfl⟩, rfl⟩
    · intro hcond
      refine ⟨?_, ?_, ?_⟩
      · rw [if_neg, tblGet_of_mem hids hp]
        intro hmem
        simp only [List.mem_map] at hmem
        obtain ⟨x, hx, hx1⟩ := hmem
        obtain ⟨q, hq, hqc, hqx⟩ := (mem_filterMap_ite _ _ _ _).1 hx
        rw [hqx] at hx1
        have : q = p := List.inj_on_of_nodup_map hids hq hp hx1
        rw [this] at hqc
        rw [hqc] at hcond
        cases hcond
      · rw [if_neg]
        intro hmem
        simp only [List.mem_map] at hmem
        obtain ⟨x, hx, hx1⟩ := hmem
        obtain ⟨q, hq, hqc, hqx⟩ := (mem_filterMap_ite _ _ _ _).1 hx
        rw [hqx] at hx1
        have : q = p := List.inj_on_of_nodup_map hmacs hq hp hx1
        rw [this] at hqc
        rw [hqc] at hcond
        cases hcond
      · rw [if_neg]
        intro hmem
        simp only [List.mem_map] at hmem
        obtain ⟨x, hx, hx1⟩ := hmem
        obtain ⟨q, hq, hqc, hqx⟩ := (mem_filterMap_ite _ _ _ _).1 hx
        rw [hqx] at hx1
        have : q = p := List.inj_on_of_nodup_map hips hq hp hx1
        rw [this] at hqc
        rw [hqc] at hcond
        cases hcond

/-- C7 witness: an old active lease is purged while a fresh one and its
index rows survive. -/
theorem C7_purge_expired_leases_witness :
    ((purge_expired_leases ldbC7w 0 5).1 =
      ldbC7w.leases.countP (fun p => purgeCond (0 - 5) p.2)) ∧
    (purgeCond (0 - 5) leaseOldA = true →
      tblGet (purge_expired_leases ldbC7w 0 5).2.leases "l1" = none ∧
      tblGet (purge_expired_leases ldbC7w 0 5).2.mac_lease_index "aa" = none ∧
      tblGet (purge_expired_leases ldbC7w 0 5).2.ip_lease_index "10.0.0.1" = none) := by
  have h := C7_purge_expired_leases_amended ldbC7w 0 5 (by decide) (by decide) (by decide)
  exact ⟨h.1, fun hc => ((h.2 ("l1", leaseOldA) (by decide)).1 hc)⟩

/-! ## C4: recursor cache contract -/

/-- C4: for a response inserted with minimum answer TTL t above 0, when
the entry was actually stored (capacity permitting) a get strictly
before t seconds after insertion returns a clone of the stored bytes,
and a get at or after t seconds misses and removes the entry; when
insert runs with the cache at or above max_size, the expired entries are
evicted first, and if the cache is still full the new entry is dropped:
the resulting entries are exactly the fresh entries of the old cache. -/
theorem C4_cache_contract (c : DnsCache) (now now2 : Nat) (k : CacheKey)
    (bytes : List Nat) (t : Nat) (ht : 0 < t) :
    (tblGet (cacheInsert c now k bytes t).entries k = some ⟨bytes, now, t * NANOS_PER_SEC⟩ →
      (now2 - now < t * NANOS_PER_SEC →
        (cacheGet (cacheInsert c now k bytes t) now2 k).1 = some bytes) ∧
      (t * NANOS_PER_SEC ≤ now2 - now →
        (cacheGet (cacheInsert c now k bytes t) now2 k).1 = none ∧
        tblGet (cacheGet (cacheInsert c now k bytes t) now2 k).2.entries k = none)) ∧
    ((if c.max_size ≤ c.entries.length then evictExpired c now else c).entries.length
        < c.max_size →
      tblGet (cacheInsert c now k bytes t).entries k = some ⟨bytes, now, t * NANOS_PER_SEC⟩) ∧
    (c.max_size ≤ c.entries.length →
      c.max_size ≤ (evictExpired c now).entries.length →
      (∀ kv ∈ (cacheInsert c now k bytes t).entries,
        kv ∈ c.entries ∧ isExpired now kv.2 = false) ∧
      (∀ kv ∈ c.entries, isExpired now kv.2 = false →
        kv ∈ (cacheInsert c now k bytes t).entries)) := by
  have htne : ¬ t = 0 := Nat.pos_iff_ne_zero.1 ht
  refine ⟨?_, ?_, ?_⟩
  · intro hget
    constructor
    · intro hlt
      have hfresh : isExpired now2 ⟨bytes, now, t * NANOS_PER_SEC⟩ = false := by
        simp only [isExpired]
        simp only [decide_eq_false_iff_not]
        omega
      simp only [cacheGet, hget, hfresh]
      simp
    · intro hge
      have hexp : isExpired now2 ⟨bytes, now, t * NANOS_PER_SEC⟩ = true := by
        simp only [isExpired]
        simp only [decide_eq_true_eq]
        omega
      simp only [cacheGet, hget, hexp]
      refine ⟨rfl, ?_⟩
      simp [tblGet_remove]
  · intro hroom
    simp only [cacheInsert, if_neg htne]
    rw [if_neg (Nat.not_le.2 hroom)]
    exact tblGet_insert_self _ _ _
  · intro hfull hstill
    simp only [cacheInsert, if_neg htne, if_pos hfull, if_pos hstill]
    constructor
    · intro kv hkv
      simp only [evictExpired, List.mem_filter] at hkv
      refine ⟨hkv.1, ?_⟩
      have := hkv.2
      simp only [Bool.not_eq_true'] at this
      exact this
    · intro kv hkv hfresh
      simp only [evictExpired, List.mem_filter]
      exact ⟨hkv, by simp [hfresh]⟩

/-- C4 witness: insert into an empty two-slot cache at time 5 with ttl
30 s; the entry is stored and an immediate get hits. -/
theorem C4_cache_contract_witness :
    (tblGet (cacheInsert cacheC4 5 k1 [1, 2, 3] 30).entries k1 =
        some ⟨[1, 2, 3], 5, 30 * NANOS_PER_SEC⟩ →
      (5 - 5 < 30 * NANOS_PER_SEC →
        (cacheGet (cacheInsert cacheC4 5 k1 [1, 2, 3] 30) 5 k1).1 = some [1, 2, 3]) ∧
      (30 * NANOS_PER_SEC ≤ 5 - 5 →
        (cacheGet (cacheInsert cacheC4 5 k1 [1, 2, 3] 30) 5 k1).1 = none ∧
        tblGet (cacheGet (cacheInsert cacheC4 5 k1 [1, 2, 3] 30) 5 k1).2.entries k1 = none)) ∧
    ((if cacheC4.max_size ≤ cacheC4.entries.length then evictExpired cacheC4 5
        else cacheC4).entries.length < cacheC4.max_size →
      tblGet (cacheInsert cacheC4 5 k1 [1, 2, 3] 30).entries k1 =
        some ⟨[1, 2, 3], 5, 30 * NANOS_PER_SEC⟩) ∧
    (cacheC4.max_size ≤ cacheC4.entries.length →
      cacheC4.max_size ≤ (evictExpired cacheC4 5).entries.length →
      (∀ kv ∈ (cacheInsert cacheC4 5 k1 [1, 2, 3] 30).entries,
        kv ∈ cacheC4.entries ∧ isExpired 5 kv.2 = false) ∧
      (∀ kv ∈ cacheC4.entries, isExpired 5 kv.2 = false →
        kv ∈ (cacheInsert cacheC4 5 k1 [1, 2, 3] 30).entries)) :=
  C4_cache_contract cacheC4 5 5 k1 [1, 2, 3] 30 (by decide)

/-! ## C6: group failsafe -/

/-- Members of a failsafe group are entries with that group key. -/
theorem mem_groupMembers_iff (entries : List (String × RecordHealth)) (k : GroupKey)
    (e : String × RecordHealth) :
    e ∈ groupMembers entries k ↔ e ∈ entries ∧ gkey e.2 = k := by
  simp [groupMembers, List.mem_filter]

/-- Under distinct record ids, an id cannot belong to the member lists
of two different groups. -/
theorem groupMembers_id_disjoint (entries : List (String × RecordHealth))
    (hnd : (entries.map Prod.fst).Nodup) {k k2 : GroupKey} {id : String}
    (h1 : id ∈ (groupMembers entries k).map Prod.fst)
    (h2 : id ∈ (groupMembers entries k2).map Prod.fst) : k = k2 := by
  obtain ⟨e1, he1, he1id⟩ := List.mem_map.1 h1
  obtain ⟨e2, he2, he2id⟩ := List.mem_map.1 h2
  rw [mem_groupMembers_iff] at he1 he2
  have : e1 = e2 :=
    List.inj_on_of_nodup_map hnd he1.1 he2.1 (by rw [he1id, he2id])
  rw [← he1.2, this, he2.2]

/-- Counting lemma for the filterMap over a duplicate-free key list. -/
theorem failsafe_count_aux (entries : List (String × RecordHealth))
    (hnd : (entries.map Prod.fst).Nodup) (k0 : GroupKey) :
    ∀ ks : List GroupKey, ks.Nodup →
      ((ks.filterMap (failsafeStep entries)).countP
        (fun id => decide (id ∈ (groupMembers entries k0).map Prod.fst)))
      = if k0 ∈ ks ∧ 1 < (groupMembers entries k0).length ∧
            (∀ e ∈ groupMembers entries k0, e.2.healthy = false) then 1 else 0 := by
  intro ks
  induction ks with
  | nil => simp
  | cons k rest ih =>
    intro hknd
    rw [List.nodup_cons] at hknd
    by_cases hq : 1 < (groupMembers entries k).length ∧
        ∀ e ∈ groupMembers entries k, e.2.healthy = false
    · have hne : groupMembers entries k ≠ [] := by
        intro hempty
        rw [hempty] at hq
        simp at hq
      have hheadmem : (groupMembers entries k).head hne ∈ groupMembers entries k :=
        List.head_mem hne
      have hsome : failsafeStep entries k = some ((groupMembers entries k).head hne).1 := by
        unfold failsafeStep
        simp only [if_pos hq, List.head?_eq_head hne, Option.map_some']
      rw [List.filterMap_cons_some hsome, List.countP_cons, ih hknd.2]
      by_cases hkk : k = k0
      · subst hkk
        have hmem : ((groupMembers entries k).head hne).1 ∈
            (groupMembers entries k).map Prod.fst :=
          List.mem_map_of_mem Prod.fst hheadmem
        rw [if_neg (fun hc => hknd.1 hc.1)]
        have hdec : decide (((groupMembers entries k).head hne).1 ∈
            (groupMembers entries k).map Prod.fst) = true := by
          simp [hmem]
        rw [hdec]
        have hcond : k ∈ k :: rest ∧ 1 < (groupMembers entries k).length ∧
            ∀ e ∈ groupMembers entries k, e.2.healthy = false :=
          ⟨List.mem_cons_self k rest, hq⟩
        rw [if_pos hcond]
        simp
      · have hnotmem : ¬ ((groupMembers entries k).head hne).1 ∈
            (groupMembers entries k0).map Prod.fst := by
          intro hc
          exact hkk (groupMembers_id_disjoint entries hnd
            (List.mem_map_of_mem Prod.fst hheadmem) hc)
        have hcons : (k0 ∈ k :: rest) ↔ (k0 ∈ rest) := by
          simp [List.mem_cons, Ne.symm hkk]
        have hdec : decide (((groupMembers entries k).head hne).1 ∈
            (groupMembers entries k0).map Prod.fst) = false := by
          simp [hnotmem]
        simp only [hdec, Bool.false_eq_true, if_false, Nat.add_zero]
        exact (if_congr (and_congr_left' hcons) rfl rfl).symm
    · have hnone : failsafeStep entries k = none := by
        unfold failsafeStep
        simp only [if_neg hq]
      rw [List.filterMap_cons_none hnone, ih hknd.2]
      by_cases hkk : k = k0
      · subst hkk
        rw [if_neg (fun hc => hq hc.2), if_neg (fun hc => hq hc.2)]
      · have hcons : (k0 ∈ k :: rest) ↔ (k0 ∈ rest) := by
          simp [List.mem_cons, Ne.symm hkk]
        exact (if_congr (and_congr_left' hcons) rfl rfl).symm

/-- C6: for every health state with distinct record ids and every group
key, the failsafe step emits exactly one id from the group when it has
at least two members all unhealthy, and no id from it otherwise; every
emitted id belongs to some unhealthy registered record. -/
theorem C6_failsafe_records (entries : List (String × RecordHealth))
    (hnd : (entries.map Prod.fst).Nodup) (k0 : GroupKey) :
    ((failsafe_records entries).countP
        (fun id => decide (id ∈ (groupMembers entries k0).map Prod.fst)) =
      if 2 ≤ (groupMembers entries k0).length ∧
          (∀ e ∈ groupMembers entries k0, e.2.healthy = false) then 1 else 0) ∧
    (∀ id ∈ failsafe_records entries,
      ∃ e ∈ entries, e.1 = id ∧ e.2.healthy = false) := by
  constructor
  · unfold failsafe_records
    rw [failsafe_count_aux entries hnd k0 (groupKeysOf entries) (List.nodup_dedup _)]
    by_cases hlen : 1 < (groupMembers entries k0).length
    · have hne : groupMembers entries k0 ≠ [] := by
        intro hempty
        rw [hempty] at hlen
        simp at hlen
      obtain ⟨e0, he0⟩ := List.exists_mem_of_ne_nil _ hne
      have hmem : k0 ∈ groupKeysOf entries := by
        rw [mem_groupMembers_iff] at he0
        unfold groupKeysOf
        rw [List.mem_dedup]
        rw [← he0.2]
        exact List.mem_map_of_mem (fun e => gkey e.2) he0.1
      by_cases hall : ∀ e ∈ groupMembers entries k0, e.2.healthy = false
      · rw [if_pos ⟨hmem, hlen, hall⟩, if_pos ⟨hlen, hall⟩]
      · rw [if_neg (fun hc => hall hc.2.2), if_neg (fun hc => hall hc.2)]
    · rw [if_neg (fun hc => hlen hc.2.1), if_neg (fun hc => hlen hc.1)]
  · intro id hid
    unfold failsafe_records at hid
    obtain ⟨k, hk, hfk⟩ := List.mem_filterMap.1 hid
    unfold failsafeStep at hfk
    simp only at hfk
    by_cases hq : 1 < (groupMembers entries k).length ∧
        ∀ e ∈ groupMembers entries k, e.2.healthy = false
    · rw [if_pos hq] at hfk
      obtain ⟨e0, he0, he0id⟩ := Option.map_eq_some'.1 hfk
      have hmem : e0 ∈ groupMembers entries k := List.mem_of_mem_head? he0
      rw [mem_groupMembers_iff] at hmem
      exact ⟨e0, hmem.1, he0id, hq.2 e0 (by rw [mem_groupMembers_iff]; exact hmem)⟩
    · rw [if_neg hq] at hfk
      cases hfk

/-- C6 witness: two unhealthy records at www/A plus a third single
record group; exactly one id is emitted from the www group. -/
theorem C6_failsafe_records_witness :
    ((failsafe_records entriesC6).countP
        (fun id => decide (id ∈ (groupMembers entriesC6 gkC6).map Prod.fst)) =
      if 2 ≤ (groupMembers entriesC6 gkC6).length ∧
          (∀ e ∈ groupMembers entriesC6 gkC6, e.2.healthy = false) then 1 else 0) ∧
    (∀ id ∈ failsafe_records entriesC6,
      ∃ e ∈ entriesC6, e.1 = id ∧ e.2.healthy = false) :=
  C6_failsafe_records entriesC6 (by decide) gkC6

/-! ## C9: AXFR caps -/

theorem countP_replicate {α : Type} (p : α → Bool) (n : Nat) (a : α) :
    (List.replicate n a).countP p = if p a then n else 0 := by
  induction n with
  | zero => simp
  | succ m ih =>
    rw [List.replicate_succ, List.countP_cons, ih]
    by_cases h : p a
    · simp [h]
    · simp [h]

/-- An ok run of the answer loop never grows the parsed list past the
record cap and never touches the byte total.  (The soa branch fixes
soa_data and default_ttl on the first SOA only; neither affects the
caps.) -/
theorem processAnswers_ok_props :
    ∀ (ans : List AxfrAnswer) (st st2 : AxfrState),
      processAnswers st ans = .ok st2 →
      (st.parsed_records.length ≤ MAX_AXFR_RECORDS →
        st2.parsed_records.length ≤ MAX_AXFR_RECORDS) ∧
      st2.total_bytes = st.total_bytes := by
  intro ans
  induction ans with
  | nil =>
    intro st st2 h
    simp only [processAnswers] at h
    cases h
    exact ⟨fun hh => hh, rfl⟩
  | cons a rest ih =>
    intro st st2 h
    cases a with
    | soaRec ttl serial =>
      simp only [processAnswers] at h
      by_cases h1 : st.soa_serial = none
      · rw [if_pos h1] at h
        by_cases h2 : 2 ≤ st.soa_count + 1
        · rw [if_pos h2] at h
          cases h
          exact ⟨fun hh => hh, rfl⟩
        · rw [if_neg h2] at h
          have hres := ih _ _ h
          exact hres
      · rw [if_neg h1] at h
        by_cases h2 : 2 ≤ st.soa_count + 1
        · rw [if_pos h2] at h
          cases h
          exact ⟨fun hh => hh, rfl⟩
        · rw [if_neg h2] at h
          have hres := ih _ _ h
          exact hres
    | other conv =>
      simp only [processAnswers] at h
      by_cases hcap : MAX_AXFR_RECORDS ≤ st.parsed_records.length
      · rw [if_pos hcap] at h
        cases h
      · rw [if_neg hcap] at h
        cases conv with
        | some rec =>
          have hrec := ih _ _ h
          have hlen : ∀ hh : st.parsed_records.length ≤ MAX_AXFR_RECORDS,
              (st.parsed_records ++ [rec]).length ≤ MAX_AXFR_RECORDS := by
            intro hh
            simp only [List.length_append, List.length_singleton]
            omega
          exact ⟨fun hh => hrec.1 (hlen hh), hrec.2⟩
        | none =>
          have hres := ih _ _ h
          exact hres

/-- An ok run of the outer read loop keeps both caps. -/
theorem processMsgs_ok_props :
    ∀ (msgs : List AxfrMsg) (st st2 : AxfrState),
      processMsgs st msgs = .ok st2 →
      st.parsed_records.length ≤ MAX_AXFR_RECORDS →
      st.total_bytes ≤ MAX_AXFR_BYTES →
      st2.parsed_records.length ≤ MAX_AXFR_RECORDS ∧
      st2.total_bytes ≤ MAX_AXFR_BYTES := by
  intro msgs
  induction msgs with
  | nil =>
    intro st st2 h hrec hbytes
    simp only [processMsgs] at h
    by_cases h2 : 2 ≤ st.soa_count
    · rw [if_pos h2] at h
      cases h
      exact ⟨hrec, hbytes⟩
    · rw [if_neg h2] at h
      cases h
  | cons m rest ih =>
    intro st st2 h hrec hbytes
    simp only [processMsgs] at h
    by_cases hz : m.len = 0
    · rw [if_pos hz] at h
      cases h
      exact ⟨hrec, hbytes⟩
    · rw [if_neg hz] at h
      by_cases hb : MAX_AXFR_BYTES < st.total_bytes + m.len
      · rw [if_pos hb] at h
        cases h
      · rw [if_neg hb] at h
        by_cases he : m.no_error = false
        · rw [if_pos he] at h
          cases h
        · rw [if_neg he] at h
          split at h
          · rename_i e heq
            cases h
          · rename_i st3 heq
            have hprops := processAnswers_ok_props _ _ _ heq
            have h3rec : st3.parsed_records.length ≤ MAX_AXFR_RECORDS := hprops.1 hrec
            have h3bytes : st3.total_bytes ≤ MAX_AXFR_BYTES := by
              rw [hprops.2]
              show st.total_bytes + m.len ≤ MAX_AXFR_BYTES
              omega
            by_cases hs : 2 ≤ st3.soa_count
            · rw [if_pos hs] at h
              cases h
              exact ⟨h3rec, h3bytes⟩
            · rw [if_neg hs] at h
              exact ih _ _ h h3rec h3bytes

/-- One answer-loop step on the first SOA of the stream. -/
theorem processAnswers_first_soa (st : AxfrState) (ttl serial : Nat)
    (rest : List AxfrAnswer) (h1 : st.soa_serial = none) (h2 : st.soa_count = 0) :
    processAnswers st (AxfrAnswer.soaRec ttl serial :: rest) =
      processAnswers
        { st with soa_count := st.soa_count + 1, soa_serial := some serial,
                  default_ttl := ttl } rest := by
  simp only [processAnswers]
  rw [if_pos h1]
  rw [if_neg (show ¬ 2 ≤ st.soa_count + 1 by omega)]

/-- One answer-loop step skipping an unconvertible record. -/
theorem processAnswers_skip_none (st : AxfrState) (rest : List AxfrAnswer)
    (h : st.parsed_records.length < MAX_AXFR_RECORDS) :
    processAnswers st (AxfrAnswer.other none :: rest) = processAnswers st rest := by
  simp only [processAnswers]
  rw [if_neg (show ¬ MAX_AXFR_RECORDS ≤ st.parsed_records.length by omega)]

/-- One answer-loop step on the closing SOA. -/
theorem processAnswers_second_soa (st : AxfrState) (ttl serial : Nat)
    (rest : List AxfrAnswer) (h1 : ¬ st.soa_serial = none) (h2 : st.soa_count = 1) :
    processAnswers st (AxfrAnswer.soaRec ttl serial :: rest) =
      .ok { st with soa_count := st.soa_count + 1 } := by
  simp only [processAnswers]
  rw [if_neg h1]
  rw [if_pos (show 2 ≤ st.soa_count + 1 by omega)]

/-- Running the answer loop over a block of convertible records pushes
them all, provided the record cap is not hit. -/
theorem processAnswers_conv_list :
    ∀ (rs : List AxfrRec) (st : AxfrState) (tail : List AxfrAnswer),
      st.parsed_records.length + rs.length ≤ MAX_AXFR_RECORDS →
      processAnswers st (rs.map (fun r => AxfrAnswer.other (some r)) ++ tail) =
        processAnswers { st with parsed_records := st.parsed_records ++ rs } tail := by
  intro rs
  induction rs with
  | nil =>
    intro st tail hcap
    simp
  | cons r rest ih =>
    intro st tail hcap
    simp only [List.length_cons] at hcap
    simp only [List.map_cons, List.cons_append]
    simp only [processAnswers]
    rw [if_neg (by omega)]
    rw [ih { st with parsed_records := st.parsed_records ++ [r] } tail
      (by
        show (st.parsed_records ++ [r]).length + rest.length ≤ MAX_AXFR_RECORDS
        simp only [List.length_append, List.length_singleton]
        omega)]
    have harr : (st.parsed_records ++ [r]) ++ rest = st.parsed_records ++ r :: rest := by
      rw [List.append_assoc, List.singleton_append]
    rw [show ({ st with parsed_records := st.parsed_records ++ [r] } : AxfrState) =
        { st with parsed_records := st.parsed_records ++ [r] } from rfl]
    congr 1
    simp [harr]

/-- One outer-loop step that ends the transfer on its first message. -/
theorem processMsgs_one (st : AxfrState) (m : AxfrMsg) (rest : List AxfrMsg)
    (st2 : AxfrState) (hz : ¬ m.len = 0)
    (hb : ¬ MAX_AXFR_BYTES < st.total_bytes + m.len) (he : m.no_error = true)
    (hans : processAnswers { st with total_bytes := st.total_bytes + m.len } m.answers =
      .ok st2)
    (hsoa : 2 ≤ st2.soa_count) :
    processMsgs st (m :: rest) = .ok st2 := by
  simp only [processMsgs]
  rw [if_neg hz, if_neg hb]
  rw [if_neg (by simp [he])]
  rw [hans]
  show (if 2 ≤ st2.soa_count then Except.ok st2 else processMsgs st2 rest) = Except.ok st2
  rw [if_pos hsoa]

/-- C9 (amended): the record cap counts successfully converted records
(a non-SOA answer arriving once 100000 records are parsed fails the
transfer; skipped unconvertible records do not count), and the byte cap
counts the length-prefixed bytes actually read.  Part 1: any stream
accepted by axfr_pull imported at most 100000 records and at most
104857600 bytes (so no cap-exceeding record set is ever imported).
Part 2: a well-formed single-message stream carrying two SOAs around at
most 100000 convertible records, within the byte cap, is accepted. -/
theorem C9_axfr_caps_amended :
    (∀ (msgs : List AxfrMsg) (st : AxfrState), axfr_pull msgs = .ok st →
      st.parsed_records.length ≤ MAX_AXFR_RECORDS ∧
      st.total_bytes ≤ MAX_AXFR_BYTES) ∧
    (∀ (recs : List AxfrRec) (len t1 n1 t2 n2 : Nat),
      recs.length ≤ MAX_AXFR_RECORDS → 0 < len → len ≤ MAX_AXFR_BYTES →
      axfr_pull
          [{ len := len, no_error := true,
             answers := AxfrAnswer.soaRec t1 n1 ::
               (recs.map (fun r => AxfrAnswer.other (some r)) ++ [AxfrAnswer.soaRec t2 n2]) }] =
        .ok { soa_count := 2, parsed_records := recs, soa_serial := some n1,
              default_ttl := t1, total_bytes := len }) := by
  constructor
  · intro msgs st h
    unfold axfr_pull at h
    cases hrun : processMsgs axfrInit msgs with
    | error e =>
      simp only [hrun] at h
      exact Except.noConfusion h
    | ok st0 =>
      simp only [hrun] at h
      by_cases hs : st0.soa_serial = none
      · rw [if_pos hs] at h
        exact Except.noConfusion h
      · rw [if_neg hs] at h
        cases h
        exact processMsgs_ok_props msgs axfrInit _ hrun (by decide) (by decide)
  · intro recs len t1 n1 t2 n2 hrecs hlen hbytes
    have hmain : processMsgs axfrInit
        [{ len := len, no_error := true,
           answers := AxfrAnswer.soaRec t1 n1 ::
             (recs.map (fun r => AxfrAnswer.other (some r)) ++ [AxfrAnswer.soaRec t2 n2]) }] =
        .ok { soa_count := 2, parsed_records := recs, soa_serial := some n1,
              default_ttl := t1, total_bytes := len } := by
      simp only [processMsgs]
      rw [if_neg (by
        show ¬ len = 0
        omega)]
      rw [if_neg (by
        show ¬ MAX_AXFR_BYTES < axfrInit.total_bytes + len
        show ¬ MAX_AXFR_BYTES < 0 + len
        omega)]
      rw [if_neg (by
        show ¬ (true = false)
        simp)]
      simp only [processAnswers]
      rw [if_pos (show (axfrInit.soa_serial = none) from rfl)]
      rw [if_neg (by
        show ¬ 2 ≤ axfrInit.soa_count + 1
        show ¬ 2 ≤ 0 + 1
        omega)]
      rw [processAnswers_conv_list recs _ _ (by
        show ([] : List AxfrRec).length + recs.length ≤ MAX_AXFR_RECORDS
        simpa using hrecs)]
      show
        Except.ok
          ({ soa_count := 2, parsed_records := recs, soa_serial := some n1,
             default_ttl := t1, total_bytes := 0 + len } : AxfrState) =
        Except.ok
          { soa_count := 2, parsed_records := recs, soa_serial := some n1,
            default_ttl := t1, total_bytes := len }
      rw [Nat.zero_add]
    unfold axfr_pull
    rw [hmain]
    rfl

/-- C9 witness: part 1 applied to a small accepted stream, part 2 to a
one-record transfer. -/
theorem C9_axfr_caps_witness :
    (smallOut.parsed_records.length ≤ MAX_AXFR_RECORDS ∧
      smallOut.total_bytes ≤ MAX_AXFR_BYTES) ∧
    axfr_pull
        [{ len := 100, no_error := true,
           answers := AxfrAnswer.soaRec 300 7 ::
             ([convRec].map (fun r => AxfrAnswer.other (some r)) ++ [AxfrAnswer.soaRec 300 9]) }] =
      .ok { soa_count := 2, parsed_records := [convRec], soa_serial := some 7,
            default_ttl := 300, total_bytes := 100 } :=
  ⟨C9_axfr_caps_amended.1 [smallMsg] smallOut (by decide),
   C9_axfr_caps_amended.2 [convRec] 100 300 7 300 9 (by decide) (by decide) (by decide)⟩

theorem nonSoaCount_shape (n len t1 s1 t2 s2 : Nat) (r : AxfrRec) :
    nonSoaCount [AxfrMsg.mk len true (AxfrAnswer.soaRec t1 s1 :: AxfrAnswer.other none ::
      (List.replicate n (AxfrAnswer.other (some r)) ++ [AxfrAnswer.soaRec t2 s2]))] =
      n + 1 := by
  unfold nonSoaCount
  simp only [List.flatMap_cons, List.flatMap_nil, List.append_nil,
    List.countP_cons, List.countP_append, countP_replicate]
  simp

theorem nonSoaCount_shape_lt (n len t1 s1 t2 s2 : Nat) (r : AxfrRec) (k : Nat)
    (h : k < n + 1) :
    k < nonSoaCount [AxfrMsg.mk len true (AxfrAnswer.soaRec t1 s1 :: AxfrAnswer.other none ::
      (List.replicate n (AxfrAnswer.other (some r)) ++ [AxfrAnswer.soaRec t2 s2]))] := by
  rw [nonSoaCount_shape]
  exact h

theorem axfr_pull_ok (msgs : List AxfrMsg) (st2 : AxfrState)
    (h : processMsgs axfrInit msgs = .ok st2) (hs : ¬ st2.soa_serial = none) :
    axfr_pull msgs = .ok st2 := by
  unfold axfr_pull
  rw [h]
  exact if_neg hs

/-- C9 counterexample: a stream with 100001 non-SOA records, one of
which fails rdata conversion, is accepted (the skipped record does not
count toward the cap), so a received stream exceeding 100000 non-SOA
records does not always fail the transfer. -/
theorem C9_counterexample :
    MAX_AXFR_RECORDS < nonSoaCount cexMsgs ∧
    axfr_pull cexMsgs =
      .ok { soa_count := 2, parsed_records := List.replicate 100000 convRec,
            soa_serial := some 7, default_ttl := 300, total_bytes := 100 } := by
  constructor
  · exact nonSoaCount_shape_lt 100000 100 300 7 300 7 convRec MAX_AXFR_RECORDS (by decide)
  · have hans : processAnswers
        { soa_count := 0, parsed_records := [], soa_serial := none,
          default_ttl := 300, total_bytes := 100 }
        (AxfrAnswer.soaRec 300 7 :: AxfrAnswer.other none ::
          (List.replicate 100000 (AxfrAnswer.other (some convRec)) ++
            [AxfrAnswer.soaRec 300 7])) =
        .ok { soa_count := 2, parsed_records := List.replicate 100000 convRec,
              soa_serial := some 7, default_ttl := 300, total_bytes := 100 } := by
      rw [processAnswers_first_soa
        { soa_count := 0, parsed_records := [], soa_serial := none,
          default_ttl := 300, total_bytes := 100 } 300 7 _ rfl rfl]
      rw [processAnswers_skip_none _ _ (by decide)]
      rw [show List.replicate 100000 (AxfrAnswer.other (some convRec)) ++
          [AxfrAnswer.soaRec 300 7] =
          (List.replicate 100000 convRec).map (fun r => AxfrAnswer.other (some r)) ++
          [AxfrAnswer.soaRec 300 7] from by rw [List.map_replicate]]
      have hlen : (List.replicate 100000 convRec).length = 100000 :=
        List.length_replicate _ _
      rw [processAnswers_conv_list (List.replicate 100000 convRec) _ _ (by
        rw [hlen]
        decide)]
      rw [processAnswers_second_soa _ 300 7 _ (by simp) rfl]
      rfl
    have hmsg : processMsgs axfrInit cexMsgs =
        .ok { soa_count := 2, parsed_records := List.replicate 100000 convRec,
              soa_serial := some 7, default_ttl := 300, total_bytes := 100 } := by
      unfold cexMsgs
      exact processMsgs_one axfrInit _ []
        { soa_count := 2, parsed_records := List.replicate 100000 convRec,
          soa_serial := some 7, default_ttl := 300, total_bytes := 100 }
        (by decide) (by decide) rfl hans (by decide)
    exact axfr_pull_ok cexMsgs _ hmsg (by simp)

/-- Every records_by_zone entry whose key belongs to the purged zone is
gone after the purge filter. -/
theorem tblGet_purged_bz (bz : List (IndexKey × List String)) (zid : String)
    (k : IndexKey) (hk : k.zone_id = zid) :
    tblGet (bz.filter (fun kv => ¬ kv.1.zone_id = zid)) k = none := by
  rw [tblGet_eq_none_iff]
  intro hmem
  simp only [List.mem_map, List.mem_filter] at hmem
  obtain ⟨p, ⟨hp, hq⟩, hfst⟩ := hmem
  rw [hfst, hk] at hq
  simp at hq

/-- C5 counterexample: deleting a replicated zone with `delete_zone`
succeeds but leaves the zone's replication_meta row in place, so a row
referencing the zone id survives. -/
theorem C5_counterexample :
    delete_zone dbC5 "z1" = .ok dbC5post ∧
    tblGet dbC5post.replication_meta "z1" = some metaC5 := by
  constructor
  · decide
  · decide

/-- C5 amended: delete_zone removes the zone row, the zone's name-index
entry, every records_by_zone entry keyed by the zone id and every record
listed under such an entry, but leaves the replication_meta table
untouched (only delete_replicated_zone clears that row). -/
theorem C5_delete_zone_amended (s : DbState) (zid : String) (z : Zone) (s2 : DbState)
    (hz : tblGet s.zones zid = some z)
    (hdel : delete_zone s zid = .ok s2) :
    tblGet s2.zones zid = none ∧
    tblGet s2.zone_name_index z.name = none ∧
    (∀ k : IndexKey, k.zone_id = zid → tblGet s2.records_by_zone k = none) ∧
    (∀ k : IndexKey, ∀ ids rid, k.zone_id = zid →
      tblGet s.records_by_zone k = some ids → rid ∈ ids →
      tblGet s2.records rid = none) ∧
    s2.replication_meta = s.replication_meta := by
  unfold delete_zone at hdel
  rw [hz] at hdel
  injection hdel with hdel
  subst hdel
  refine ⟨?_, ?_, ?_, ?_, rfl⟩
  · show tblGet (tblRemove s.zones zid) zid = none
    rw [tblGet_remove]
    simp
  · show tblGet (tblRemove s.zone_name_index z.name) z.name = none
    rw [tblGet_remove]
    simp
  · intro k hk
    show tblGet (purgeZoneRecords s.records s.records_by_zone zid).2 k = none
    unfold purgeZoneRecords
    exact tblGet_purged_bz s.records_by_zone zid k hk
  · intro k ids rid hk hids hrid
    show tblGet (purgeZoneRecords s.records s.records_by_zone zid).1 rid = none
    unfold purgeZoneRecords
    rw [tblGet_removeAll]
    have hmem : (k, ids) ∈ s.records_by_zone.filter (fun kv => kv.1.zone_id = zid) := by
      rw [List.mem_filter]
      exact ⟨tblGet_mem hids, by simp [hk]⟩
    have hin : rid ∈ (s.records_by_zone.filter
        (fun kv => kv.1.zone_id = zid)).flatMap Prod.snd := by
      rw [List.mem_flatMap]
      exact ⟨(k, ids), hmem, hrid⟩
    rw [if_pos hin]

/-- C5 witness: the amended theorem applied to a one-zone store with a
replication_meta row. -/
theorem C5_delete_zone_witness :
    tblGet dbC5.zones "z1" = some zC5 ∧
    delete_zone dbC5 "z1" = .ok dbC5post ∧
    dbC5post.replication_meta = dbC5.replication_meta :=
  ⟨rfl, by decide,
   (C5_delete_zone_amended dbC5 "z1" zC5 dbC5post rfl (by decide)).2.2.2.2⟩

/-- Each serialized option contributes at least one byte, so the option
area is at least as long as the option list. -/
theorem length_le_optionBytes (os : List DhcpOption) :
    os.length ≤ (optionBytes os).length := by
  induction os with
  | nil => simp [optionBytes]
  | cons o rest ih =>
    by_cases h : o.code ≠ OPT_END
    · simp only [optionBytes, if_pos h, List.length_append, List.length_cons]
      omega
    · simp only [optionBytes, if_neg h, List.length_append, List.length_cons,
        List.length_nil]
      omega

/-- Parsing the serialized option area of a well-formed option list
recovers the list, whatever bytes follow, given enough fuel (one unit
per option). -/
theorem parseOptionsGo_roundtrip :
    ∀ (os : List DhcpOption) (tail : List Nat) (fuel : Nat),
      OptsWf os → os.length ≤ fuel →
      parseOptionsGo fuel (optionBytes os ++ tail) = os := by
  intro os
  induction os with
  | nil =>
    intro tail fuel hwf _
    exact absurd hwf.1 (by simp)
  | cons o rest ih =>
    intro tail fuel hwf hfuel
    cases fuel with
    | zero => simp at hfuel
    | succ f =>
      cases rest with
      | nil =>
        have ho : o = ⟨OPT_END, []⟩ := by
          have h1 := hwf.1
          rw [List.getLast?_singleton] at h1
          exact Option.some_injective _ h1
        subst ho
        rfl
      | cons r rest2 =>
        have hmem : o ∈ (o :: r :: rest2).dropLast := by
          rw [List.dropLast_cons₂]
          exact List.mem_cons_self _ _
        obtain ⟨hc0, hcE, hlen255, _⟩ := hwf.2 o hmem
        have hwf2 : OptsWf (r :: rest2) := by
          constructor
          · have h1 := hwf.1
            rw [List.getLast?_cons_cons] at h1
            exact h1
          · intro x hx
            exact hwf.2 x (by
              rw [List.dropLast_cons₂]
              exact List.mem_cons_of_mem _ hx)
        have hmod : o.data.length % 256 = o.data.length :=
          Nat.mod_eq_of_lt (by omega)
        have hfl : (r :: rest2).length ≤ f := by
          simp only [List.length_cons] at hfuel ⊢
          omega
        rw [show optionBytes (o :: r :: rest2) =
            (o.code :: (o.data.length % 256) :: o.data) ++ optionBytes (r :: rest2) from by
          simp only [optionBytes, if_pos hcE]]
        rw [List.append_assoc]
        show (if o.code = OPT_END then [(⟨OPT_END, []⟩ : DhcpOption)]
          else if o.code = 0 then
            parseOptionsGo f ((o.data.length % 256) ::
              (o.data ++ (optionBytes (r :: rest2) ++ tail)))
          else if (o.data ++ (optionBytes (r :: rest2) ++ tail)).length <
              o.data.length % 256 then []
          else (⟨o.code, (o.data ++ (optionBytes (r :: rest2) ++ tail)).take
              (o.data.length % 256)⟩ : DhcpOption) ::
            parseOptionsGo f ((o.data ++ (optionBytes (r :: rest2) ++ tail)).drop
              (o.data.length % 256))) = o :: r :: rest2
        rw [hmod]
        rw [if_neg hcE, if_neg hc0]
        rw [if_neg (show ¬ ((o.data ++ (optionBytes (r :: rest2) ++ tail)).length <
            o.data.length) from by
          simp only [List.length_append]
          omega)]
        rw [List.take_left, List.drop_left]
        rw [ih tail f hwf2 hfl]

/-- dhcp_parse applied to an explicitly laid out buffer: 28 scalar header
bytes, then the three fixed-size arrays, the magic cookie, a well-formed
option area and arbitrary padding. -/
theorem dhcp_parse_explicit (op htype hlenb hops x0 x1 x2 x3 s0 s1 f0 f1
    c0 c1 c2 c3 y0 y1 y2 y3 v0 v1 v2 v3 g0 g1 g2 g3 : Nat)
    (ch sn fl : List Nat) (os : List DhcpOption) (pad : List Nat)
    (hch : ch.length = 16) (hsn : sn.length = 64) (hfl : fl.length = 128)
    (hos : OptsWf os) :
    dhcp_parse (op :: htype :: hlenb :: hops :: x0 :: x1 :: x2 :: x3 :: s0 :: s1 :: f0 :: f1 :: c0 :: c1 :: c2 :: c3 :: y0 :: y1 :: y2 :: y3 :: v0 :: v1 :: v2 :: v3 :: g0 :: g1 :: g2 :: g3 :: (ch ++ (sn ++ (fl ++ (MAGIC_COOKIE ++ (optionBytes os ++ pad)))))) =
      some ⟨op, htype, hlenb, hops, be32 x0 x1 x2 x3, be16 s0 s1, be16 f0 f1,
        ⟨c0, c1, c2, c3⟩, ⟨y0, y1, y2, y3⟩, ⟨v0, v1, v2, v3⟩, ⟨g0, g1, g2, g3⟩,
        ch, sn, fl, os⟩ := by
  have h240 : ¬ ((op :: htype :: hlenb :: hops :: x0 :: x1 :: x2 :: x3 :: s0 :: s1 :: f0 :: f1 :: c0 :: c1 :: c2 :: c3 :: y0 :: y1 :: y2 :: y3 :: v0 :: v1 :: v2 :: v3 :: g0 :: g1 :: g2 :: g3 :: (ch ++ (sn ++ (fl ++ (MAGIC_COOKIE ++ (optionBytes os ++ pad)))))).length < 240) := by
    simp only [List.length_cons, List.length_append, hch, hsn, hfl, MAGIC_COOKIE,
      List.length_nil]
    omega
  have hdrop236 : (op :: htype :: hlenb :: hops :: x0 :: x1 :: x2 :: x3 :: s0 :: s1 :: f0 :: f1 :: c0 :: c1 :: c2 :: c3 :: y0 :: y1 :: y2 :: y3 :: v0 :: v1 :: v2 :: v3 :: g0 :: g1 :: g2 :: g3 :: (ch ++ (sn ++ (fl ++ (MAGIC_COOKIE ++ (optionBytes os ++ pad)))))).drop 236 = MAGIC_COOKIE ++ (optionBytes os ++ pad) := by
    have h1 : (op :: htype :: hlenb :: hops :: x0 :: x1 :: x2 :: x3 :: s0 :: s1 :: f0 :: f1 :: c0 :: c1 :: c2 :: c3 :: y0 :: y1 :: y2 :: y3 :: v0 :: v1 :: v2 :: v3 :: g0 :: g1 :: g2 :: g3 :: (ch ++ (sn ++ (fl ++ (MAGIC_COOKIE ++ (optionBytes os ++ pad)))))).drop 236 = ((ch ++ (sn ++ (fl ++ (MAGIC_COOKIE ++ (optionBytes os ++ pad)))))).drop 208 := rfl
    have h2 : ((ch ++ (sn ++ (fl ++ (MAGIC_COOKIE ++ (optionBytes os ++ pad)))))).drop 208 = (((((ch ++ (sn ++ (fl ++ (MAGIC_COOKIE ++ (optionBytes os ++ pad)))))).drop 16).drop 64)).drop 128 := by
      rw [List.drop_drop, List.drop_drop]
    rw [h1, h2, List.drop_left' hch, List.drop_left' hsn, List.drop_left' hfl]
  have hcookie : ¬ (((op :: htype :: hlenb :: hops :: x0 :: x1 :: x2 :: x3 :: s0 :: s1 :: f0 :: f1 :: c0 :: c1 :: c2 :: c3 :: y0 :: y1 :: y2 :: y3 :: v0 :: v1 :: v2 :: v3 :: g0 :: g1 :: g2 :: g3 :: (ch ++ (sn ++ (fl ++ (MAGIC_COOKIE ++ (optionBytes os ++ pad)))))).drop 236).take 4 ≠ MAGIC_COOKIE) := by
    rw [hdrop236, List.take_left' (show MAGIC_COOKIE.length = 4 from rfl)]
    simp
  unfold dhcp_parse
  rw [if_neg h240, if_neg hcookie]
  show some (⟨op, htype, hlenb, hops, be32 x0 x1 x2 x3, be16 s0 s1, be16 f0 f1,
      ⟨c0, c1, c2, c3⟩, ⟨y0, y1, y2, y3⟩, ⟨v0, v1, v2, v3⟩, ⟨g0, g1, g2, g3⟩,
      ((ch ++ (sn ++ (fl ++ (MAGIC_COOKIE ++ (optionBytes os ++ pad)))))).take 16, (((ch ++ (sn ++ (fl ++ (MAGIC_COOKIE ++ (optionBytes os ++ pad)))))).drop 16).take 64, (((ch ++ (sn ++ (fl ++ (MAGIC_COOKIE ++ (optionBytes os ++ pad)))))).drop 80).take 128,
      parse_options (((ch ++ (sn ++ (fl ++ (MAGIC_COOKIE ++ (optionBytes os ++ pad)))))).drop 212)⟩ : DhcpPacket) = _
  have hc : ((ch ++ (sn ++ (fl ++ (MAGIC_COOKIE ++ (optionBytes os ++ pad)))))).take 16 = ch := List.take_left' hch
  have hs : (((ch ++ (sn ++ (fl ++ (MAGIC_COOKIE ++ (optionBytes os ++ pad)))))).drop 16).take 64 = sn := by
    rw [List.drop_left' hch]
    exact List.take_left' hsn
  have hf2 : (((ch ++ (sn ++ (fl ++ (MAGIC_COOKIE ++ (optionBytes os ++ pad)))))).drop 80).take 128 = fl := by
    have e : ((ch ++ (sn ++ (fl ++ (MAGIC_COOKIE ++ (optionBytes os ++ pad)))))).drop 80 = (((ch ++ (sn ++ (fl ++ (MAGIC_COOKIE ++ (optionBytes os ++ pad)))))).drop 16).drop 64 := by
      rw [List.drop_drop]
    rw [e, List.drop_left' hch, List.drop_left' hsn]
    exact List.take_left' hfl
  have hopt : parse_options (((ch ++ (sn ++ (fl ++ (MAGIC_COOKIE ++ (optionBytes os ++ pad)))))).drop 212) = os := by
    have e : ((ch ++ (sn ++ (fl ++ (MAGIC_COOKIE ++ (optionBytes os ++ pad)))))).drop 212 = (((((ch ++ (sn ++ (fl ++ (MAGIC_COOKIE ++ (optionBytes os ++ pad)))))).drop 16).drop 64).drop 128).drop 4 := by
      rw [List.drop_drop, List.drop_drop, List.drop_drop]
    have e2 : ((ch ++ (sn ++ (fl ++ (MAGIC_COOKIE ++ (optionBytes os ++ pad)))))).drop 212 = optionBytes os ++ pad := by
      rw [e, List.drop_left' hch, List.drop_left' hsn, List.drop_left' hfl,
        List.drop_left' (show MAGIC_COOKIE.length = 4 from rfl)]
    rw [e2]
    unfold parse_options
    exact parseOptionsGo_roundtrip os pad _ hos
      (le_trans (length_le_optionBytes os) (by simp))
  rw [hc, hs, hf2, hopt]


/-- C8: parsing the serializer's output of a well-formed packet returns
the packet: every structural field including the option list survives
the roundtrip (packet.rs to_bytes then parse). -/
theorem C8_dhcp_roundtrip (p : DhcpPacket) (h : PacketWf p) :
    dhcp_parse (to_bytes p) = some p := by
  obtain ⟨hop, hht, hhl, hhops, hxid, hsecs, hflags, hch, hsn, hfl, _, _, _, hos⟩ := h
  have hend : ¬ ((p.options.getLast?).map (fun o => o.code) ≠ some OPT_END) := by
    rw [hos.1]
    simp
  simp only [to_bytes]
  rw [if_neg hend]
  simp only [List.append_nil, be32Bytes, be16Bytes, ipBytes,
    List.cons_append, List.nil_append, List.append_assoc]
  rw [dhcp_parse_explicit _ _ _ _ _ _ _ _ _ _ _ _ _ _ _ _ _ _ _ _ _ _ _ _ _ _ _ _
    _ _ _ _ _ hch hsn hfl hos]
  rw [show be32 (p.xid / 16777216 % 256) (p.xid / 65536 % 256) (p.xid / 256 % 256)
      (p.xid % 256) = p.xid from by unfold be32; omega]
  rw [show be16 (p.secs / 256 % 256) (p.secs % 256) = p.secs from by unfold be16; omega]
  rw [show be16 (p.flags / 256 % 256) (p.flags % 256) = p.flags from by unfold be16; omega]

/-- C8 witness: the roundtrip theorem applied to a concrete DISCOVER-like
packet. -/
theorem C8_dhcp_roundtrip_witness :
    PacketWf pkt0 ∧ dhcp_parse (to_bytes pkt0) = some pkt0 :=
  ⟨by decide, C8_dhcp_roundtrip pkt0 (by decide)⟩

theorem mem_tblInsert_iff {κ υ : Type} [DecidableEq κ] {t : List (κ × υ)}
    (hnd : (t.map Prod.fst).Nodup) {k : κ} {v : υ} {p : κ × υ} :
    p ∈ tblInsert t k v ↔ p = (k, v) ∨ (p ∈ t ∧ p.1 ≠ k) := by
  induction t with
  | nil => simp [tblInsert]
  | cons kv rest ih =>
    obtain ⟨a, b⟩ := kv
    simp only [List.map_cons, List.nodup_cons] at hnd
    obtain ⟨hk, hrest⟩ := hnd
    by_cases h : a = k
    · rw [show tblInsert ((a, b) :: rest) k v = (k, v) :: rest from by
        simp [tblInsert, h]]
      simp only [List.mem_cons]
      constructor
      · rintro (hp | hp)
        · left; exact hp
        · right
          refine ⟨Or.inr hp, ?_⟩
          intro he
          exact hk (by rw [h, ← he]; exact List.mem_map_of_mem Prod.fst hp)
      · rintro (hp | ⟨hp, hne⟩)
        · left; exact hp
        · rcases hp with he | hm
          · exact absurd (by rw [he]; exact h) hne
          · right; exact hm
    · rw [show tblInsert ((a, b) :: rest) k v = (a, b) :: tblInsert rest k v from by
        simp [tblInsert, h]]
      simp only [List.mem_cons]
      constructor
      · rintro (he | hins)
        · right
          refine ⟨Or.inl he, ?_⟩
          rw [he]
          exact h
        · rcases (ih hrest).mp hins with he | ⟨hm, hne⟩
          · left; exact he
          · right; exact ⟨Or.inr hm, hne⟩
      · rintro (he | ⟨hm, hne⟩)
        · right; exact (ih hrest).mpr (Or.inl he)
        · rcases hm with he2 | hm2
          · left; exact he2
          · right; exact (ih hrest).mpr (Or.inr ⟨hm2, hne⟩)

theorem IndexInv_create (s : DbState) (r : DRecord)
    (hinv : IndexInv s) (hfresh : tblGet s.records r.id = none) :
    IndexInv (create_record s r) := by
  obtain ⟨hkeyed, ⟨hndR, hndB⟩, hsound, hcomp⟩ := hinv
  have hfreshmem : ∀ ids, tblGet s.records_by_zone (keyOf r) = some ids → r.id ∉ ids := by
    intro ids hb hmem
    obtain ⟨rec, hrec, _⟩ := (hsound _ (tblGet_mem hb)).2.2 r.id hmem
    rw [hfresh] at hrec
    cases hrec
  have hmain : ∀ ids2,
      ((tblGet s.records_by_zone (keyOf r) = none ∧ ids2 = [r.id]) ∨
       (∃ ids, tblGet s.records_by_zone (keyOf r) = some ids ∧ ids2 = ids ++ [r.id])) →
      IndexInv { s with records := tblInsert s.records r.id r,
                        records_by_zone := tblInsert s.records_by_zone (keyOf r) ids2 } := by
    intro ids2 hids2
    refine ⟨?_, ⟨?_, ?_⟩, ?_, ?_⟩
    · intro p hp
      rcases mem_tblInsert hp with he | hm
      · rw [he]
      · exact hkeyed p hm
    · exact keys_tblInsert_nodup _ _ hndR
    · exact keys_tblInsert_nodup _ _ hndB
    · intro q hq
      rcases (mem_tblInsert_iff hndB).mp hq with he | ⟨hm, hne⟩
      · subst he
        refine ⟨?_, ?_, ?_⟩
        · rcases hids2 with ⟨_, h2⟩ | ⟨ids, _, h2⟩ <;> subst h2 <;> simp
        · rcases hids2 with ⟨_, h2⟩ | ⟨ids, hb, h2⟩
          · subst h2; simp
          · subst h2
            rw [List.nodup_append]
            refine ⟨(hsound _ (tblGet_mem hb)).2.1, List.nodup_singleton _, ?_⟩
            intro a ha hb2
            rw [List.mem_singleton] at hb2
            subst hb2
            exact hfreshmem _ hb ha
        · intro rid hrid
          have hsplit : rid = r.id ∨
              ∃ ids, tblGet s.records_by_zone (keyOf r) = some ids ∧ rid ∈ ids := by
            rcases hids2 with ⟨_, h2⟩ | ⟨ids, hb, h2⟩
            · subst h2; left; exact List.mem_singleton.mp hrid
            · subst h2
              rcases List.mem_append.mp hrid with h | h
              · right; exact ⟨ids, hb, h⟩
              · left; exact List.mem_singleton.mp h
          rcases hsplit with he | ⟨ids, hb, hmem⟩
          · subst he
            exact ⟨r, tblGet_insert_self _ _ _, rfl⟩
          · obtain ⟨rec, hrec, hkey⟩ := (hsound _ (tblGet_mem hb)).2.2 rid hmem
            have hne2 : rid ≠ r.id := by
              intro he
              rw [he, hfresh] at hrec
              cases hrec
            exact ⟨rec, by rw [tblGet_insert_ne _ _ _ _ hne2]; exact hrec, hkey⟩
      · obtain ⟨hne0, hnd0, hres⟩ := hsound q hm
        refine ⟨hne0, hnd0, ?_⟩
        intro rid hrid
        obtain ⟨rec, hrec, hkey⟩ := hres rid hrid
        have hne2 : rid ≠ r.id := by
          intro he
          rw [he, hfresh] at hrec
          cases hrec
        exact ⟨rec, by rw [tblGet_insert_ne _ _ _ _ hne2]; exact hrec, hkey⟩
    · intro p hp
      rcases mem_tblInsert hp with he | hm
      · subst he
        refine ⟨ids2, tblGet_insert_self _ _ _, ?_⟩
        rcases hids2 with ⟨_, h2⟩ | ⟨ids, _, h2⟩ <;> subst h2 <;> simp
      · obtain ⟨ids0, hb0, hmem0⟩ := hcomp p hm
        by_cases hkey : keyOf p.2 = keyOf r
        · rcases hids2 with ⟨hb, h2⟩ | ⟨ids, hb, h2⟩
          · rw [hkey] at hb0
            rw [hb] at hb0
            cases hb0
          · rw [hkey] at hb0
            rw [hb] at hb0
            injection hb0 with he
            subst h2
            rw [← he] at hmem0
            refine ⟨ids ++ [r.id], ?_, List.mem_append_left _ hmem0⟩
            rw [hkey]
            exact tblGet_insert_self _ _ _
        · refine ⟨ids0, ?_, hmem0⟩
          rw [tblGet_insert_ne _ _ _ _ hkey]
          exact hb0
  cases hb : tblGet s.records_by_zone (keyOf r) with
  | none =>
    have he : create_record s r =
        { s with records := tblInsert s.records r.id r,
                 records_by_zone := tblInsert s.records_by_zone (keyOf r) [r.id] } := by
      simp only [create_record, insertRecordRaw, hb]
    rw [he]
    exact hmain [r.id] (Or.inl ⟨hb, rfl⟩)
  | some ids =>
    have he : create_record s r =
        { s with records := tblInsert s.records r.id r,
                 records_by_zone := tblInsert s.records_by_zone (keyOf r) (ids ++ [r.id]) } := by
      simp only [create_record, insertRecordRaw, hb]
    rw [he]
    exact hmain (ids ++ [r.id]) (Or.inr ⟨ids, hb, rfl⟩)

theorem IndexInv_update (s : DbState) (r : DRecord) (hinv : IndexInv s)
    (hwf : OptIs (tblGet s.records r.id) (fun old => keyOf old = keyOf r) ∨
      tblGet s.records r.id = none) :
    IndexInv (applyOp s (DbOp.update r)) := by
  obtain ⟨hkeyed, ⟨hndR, hndB⟩, hsound, hcomp⟩ := hinv
  cases hg : tblGet s.records r.id with
  | none =>
    have he : applyOp s (DbOp.update r) = s := by
      simp only [applyOp, update_record, hg]
    rw [he]
    exact ⟨hkeyed, ⟨hndR, hndB⟩, hsound, hcomp⟩
  | some old =>
    have hkeq : keyOf old = keyOf r := by
      rcases hwf with ⟨o2, ho2, hk⟩ | hnone
      · rw [hg] at ho2
        injection ho2 with he2
        rw [he2]
        exact hk
      · rw [hnone] at hg
        cases hg
    have he : applyOp s (DbOp.update r) =
        { s with records := tblInsert s.records r.id r } := by
      simp only [applyOp, update_record, hg]
    rw [he]
    refine ⟨?_, ⟨keys_tblInsert_nodup _ _ hndR, hndB⟩, ?_, ?_⟩
    · intro p hp
      rcases mem_tblInsert hp with he2 | hm
      · rw [he2]
      · exact hkeyed p hm
    · intro q hq
      obtain ⟨hne0, hnd0, hres⟩ := hsound q hq
      refine ⟨hne0, hnd0, ?_⟩
      intro rid hrid
      obtain ⟨rec, hrec, hkey⟩ := hres rid hrid
      by_cases he2 : rid = r.id
      · subst he2
        refine ⟨r, tblGet_insert_self _ _ _, ?_⟩
        rw [hg] at hrec
        injection hrec with he3
        show keyOf r = q.1
        rw [← hkeq, he3]
        exact hkey
      · exact ⟨rec, by rw [tblGet_insert_ne _ _ _ _ he2]; exact hrec, hkey⟩
    · intro p hp
      rcases mem_tblInsert hp with he2 | hm
      · subst he2
        obtain ⟨ids0, hb0, hmem0⟩ := hcomp (r.id, old) (tblGet_mem hg)
        refine ⟨ids0, ?_, hmem0⟩
        show tblGet s.records_by_zone (keyOf r) = some ids0
        rw [← hkeq]
        exact hb0
      · exact hcomp p hm

theorem IndexInv_delete (s : DbState) (rid : String) (hinv : IndexInv s) :
    IndexInv (applyOp s (DbOp.delete rid)) := by
  obtain ⟨hkeyed, ⟨hndR, hndB⟩, hsound, hcomp⟩ := hinv
  cases hg : tblGet s.records rid with
  | none =>
    have he : applyOp s (DbOp.delete rid) = s := by
      simp only [applyOp, delete_record, hg]
    rw [he]
    exact ⟨hkeyed, ⟨hndR, hndB⟩, hsound, hcomp⟩
  | some r =>
    obtain ⟨ids, hb, hmemid⟩ := hcomp (rid, r) (tblGet_mem hg)
    by_cases hnil : ids.filter (fun i => i ≠ rid) = []
    · have he : applyOp s (DbOp.delete rid) =
          { s with records := tblRemove s.records rid,
                   records_by_zone := tblRemove s.records_by_zone (keyOf r) } := by
        simp only [applyOp, delete_record, hg, hb]
        rw [if_pos hnil]
      rw [he]
      refine ⟨?_, ⟨keys_tblRemove_nodup _ hndR, keys_tblRemove_nodup _ hndB⟩, ?_, ?_⟩
      · intro p hp
        exact hkeyed p (mem_tblRemove_iff.mp hp).1
      · intro q hq
        obtain ⟨hqB, hqne⟩ := mem_tblRemove_iff.mp hq
        obtain ⟨hne0, hnd0, hres⟩ := hsound q hqB
        refine ⟨hne0, hnd0, ?_⟩
        intro rid2 hrid2
        obtain ⟨rec, hrec, hkey⟩ := hres rid2 hrid2
        have hne2 : rid2 ≠ rid := by
          intro he2
          subst he2
          rw [hg] at hrec
          injection hrec with he3
          exact hqne (by rw [← hkey, ← he3])
        refine ⟨rec, ?_, hkey⟩
        rw [tblGet_remove, if_neg hne2]
        exact hrec
      · intro p hp
        obtain ⟨hpR, hpne⟩ := mem_tblRemove_iff.mp hp
        obtain ⟨ids0, hb0, hmem0⟩ := hcomp p hpR
        have hkeyne : keyOf p.2 ≠ keyOf r := by
          intro he2
          rw [he2, hb] at hb0
          injection hb0 with he3
          have hmf : p.1 ∈ ids.filter (fun i => i ≠ rid) := by
            rw [List.mem_filter]
            exact ⟨by rw [he3]; exact hmem0, by simpa using hpne⟩
          rw [hnil] at hmf
          cases hmf
        refine ⟨ids0, ?_, hmem0⟩
        rw [tblGet_remove, if_neg hkeyne]
        exact hb0
    · have he : applyOp s (DbOp.delete rid) =
          { s with records := tblRemove s.records rid,
                   records_by_zone := tblInsert s.records_by_zone (keyOf r)
                     (ids.filter (fun i => i ≠ rid)) } := by
        simp only [applyOp, delete_record, hg, hb]
        rw [if_neg hnil]
      rw [he]
      refine ⟨?_, ⟨keys_tblRemove_nodup _ hndR, keys_tblInsert_nodup _ _ hndB⟩, ?_, ?_⟩
      · intro p hp
        exact hkeyed p (mem_tblRemove_iff.mp hp).1
      · intro q hq
        rcases (mem_tblInsert_iff hndB).mp hq with he2 | ⟨hm, hne⟩
        · subst he2
          obtain ⟨hne0, hnd0, hres⟩ := hsound _ (tblGet_mem hb)
          refine ⟨hnil, hnd0.filter _, ?_⟩
          intro rid2 hrid2
          have hrid2b : rid2 ∈ ids.filter (fun i => i ≠ rid) := hrid2
          rw [List.mem_filter] at hrid2b
          obtain ⟨hrid2m, hrid2ne⟩ := hrid2b
          obtain ⟨rec, hrec, hkey⟩ := hres rid2 hrid2m
          have hne2 : rid2 ≠ rid := by simpa using hrid2ne
          refine ⟨rec, ?_, hkey⟩
          rw [tblGet_remove, if_neg hne2]
          exact hrec
        · obtain ⟨hne0, hnd0, hres⟩ := hsound q hm
          refine ⟨hne0, hnd0, ?_⟩
          intro rid2 hrid2
          obtain ⟨rec, hrec, hkey⟩ := hres rid2 hrid2
          have hne2 : rid2 ≠ rid := by
            intro he2
            subst he2
            rw [hg] at hrec
            injection hrec with he3
            exact hne (by rw [← hkey, ← he3])
          refine ⟨rec, ?_, hkey⟩
          rw [tblGet_remove, if_neg hne2]
          exact hrec
      · intro p hp
        obtain ⟨hpR, hpne⟩ := mem_tblRemove_iff.mp hp
        obtain ⟨ids0, hb0, hmem0⟩ := hcomp p hpR
        by_cases hkeyeq : keyOf p.2 = keyOf r
        · rw [hkeyeq, hb] at hb0
          injection hb0 with he3
          refine ⟨ids.filter (fun i => i ≠ rid), ?_, ?_⟩
          · rw [hkeyeq]
            exact tblGet_insert_self _ _ _
          · show p.1 ∈ ids.filter (fun i => i ≠ rid)
            rw [List.mem_filter]
            exact ⟨by rw [he3]; exact hmem0, by simpa using hpne⟩
        · refine ⟨ids0, ?_, hmem0⟩
          rw [tblGet_insert_ne _ _ _ _ hkeyeq]
          exact hb0

theorem purge_fresh (s : DbState) (zid : String) (hinv : IndexInv s) (rid : String)
    (hwf : OptIs (tblGet s.records rid) (fun old => old.zone_id = zid) ∨
      tblGet s.records rid = none) :
    tblGet (purgeZoneRecords s.records s.records_by_zone zid).1 rid = none := by
  obtain ⟨hkeyed, ⟨hndR, hndB⟩, hsound, hcomp⟩ := hinv
  show tblGet (tblRemoveAll s.records
    ((s.records_by_zone.filter (fun kv => kv.1.zone_id = zid)).flatMap Prod.snd)) rid = none
  rw [tblGet_removeAll]
  by_cases hmem : rid ∈ (s.records_by_zone.filter
      (fun kv => kv.1.zone_id = zid)).flatMap Prod.snd
  · rw [if_pos hmem]
  · rw [if_neg hmem]
    rcases hwf with ⟨old, hold, hzone⟩ | hnone
    · exfalso
      apply hmem
      obtain ⟨ids, hb, hmem0⟩ := hcomp (rid, old) (tblGet_mem hold)
      rw [List.mem_flatMap]
      refine ⟨(keyOf old, ids), ?_, hmem0⟩
      rw [List.mem_filter]
      refine ⟨tblGet_mem hb, ?_⟩
      simp [keyOf, hzone]
    · exact hnone

theorem IndexInv_purged (s : DbState) (zid : String) (hinv : IndexInv s) :
    IndexInv { s with records := (purgeZoneRecords s.records s.records_by_zone zid).1,
                      records_by_zone := (purgeZoneRecords s.records s.records_by_zone zid).2 } := by
  obtain ⟨hkeyed, ⟨hndR, hndB⟩, hsound, hcomp⟩ := hinv
  have hndB1 : (((s.records_by_zone.filter (fun kv => ¬ kv.1.zone_id = zid)).map
      Prod.fst)).Nodup :=
    List.Nodup.sublist ((List.filter_sublist _).map Prod.fst) hndB
  refine ⟨?_, ⟨?_, ?_⟩, ?_, ?_⟩
  · intro p hp
    exact hkeyed p (mem_tblRemoveAll_iff.mp hp).1
  · exact keys_tblRemoveAll_nodup _ hndR
  · exact hndB1
  · intro q hq
    have hq2 : q ∈ s.records_by_zone.filter (fun kv => ¬ kv.1.zone_id = zid) := hq
    rw [List.mem_filter] at hq2
    obtain ⟨hqB, hqz⟩ := hq2
    have hqzne : q.1.zone_id ≠ zid := by simpa using hqz
    obtain ⟨hne0, hnd0, hres⟩ := hsound q hqB
    refine ⟨hne0, hnd0, ?_⟩
    intro rid2 hrid2
    obtain ⟨rec, hrec, hkey⟩ := hres rid2 hrid2
    have hnotdoomed : rid2 ∉ (s.records_by_zone.filter
        (fun kv => kv.1.zone_id = zid)).flatMap Prod.snd := by
      intro hmem
      rw [List.mem_flatMap] at hmem
      obtain ⟨d, hd, hrid2d⟩ := hmem
      rw [List.mem_filter] at hd
      obtain ⟨hdB, hdz⟩ := hd
      obtain ⟨rec2, hrec2, hkey2⟩ := (hsound d hdB).2.2 rid2 hrid2d
      rw [hrec] at hrec2
      injection hrec2 with he3
      apply hqzne
      rw [← hkey, he3, hkey2]
      exact of_decide_eq_true hdz
    refine ⟨rec, ?_, hkey⟩
    show tblGet (tblRemoveAll s.records
      ((s.records_by_zone.filter (fun kv => kv.1.zone_id = zid)).flatMap Prod.snd)) rid2 =
      some rec
    rw [tblGet_removeAll, if_neg hnotdoomed]
    exact hrec
  · intro p hp
    obtain ⟨hpR, hpnd⟩ := mem_tblRemoveAll_iff.mp hp
    obtain ⟨ids0, hb0, hmem0⟩ := hcomp p hpR
    have hkeyz : ¬ (keyOf p.2).zone_id = zid := by
      intro he2
      apply hpnd
      rw [List.mem_flatMap]
      refine ⟨(keyOf p.2, ids0), ?_, hmem0⟩
      rw [List.mem_filter]
      exact ⟨tblGet_mem hb0, by simpa using he2⟩
    refine ⟨ids0, ?_, hmem0⟩
    show tblGet (s.records_by_zone.filter (fun kv => ¬ kv.1.zone_id = zid))
      (keyOf p.2) = some ids0
    apply tblGet_of_mem hndB1
    rw [List.mem_filter]
    exact ⟨tblGet_mem hb0, by simpa using hkeyz⟩

theorem IndexInv_insertFold :
    ∀ (rs : List DRecord) (s : DbState), IndexInv s →
      ((rs.map (fun r => r.id)).Nodup) →
      (∀ r ∈ rs, tblGet s.records r.id = none) →
      IndexInv { s with
        records := (rs.foldl (fun acc r => insertRecordRaw acc.1 acc.2 r)
          (s.records, s.records_by_zone)).1,
        records_by_zone := (rs.foldl (fun acc r => insertRecordRaw acc.1 acc.2 r)
          (s.records, s.records_by_zone)).2 } := by
  intro rs
  induction rs with
  | nil =>
    intro s hinv _ _
    exact hinv
  | cons r rest ih =>
    intro s hinv hnd hfresh
    simp only [List.map_cons, List.nodup_cons] at hnd
    obtain ⟨hnotin, hnd2⟩ := hnd
    have hstep : List.foldl (fun acc r => insertRecordRaw acc.1 acc.2 r)
        (s.records, s.records_by_zone) (r :: rest) =
        List.foldl (fun acc r => insertRecordRaw acc.1 acc.2 r)
          ((create_record s r).records, (create_record s r).records_by_zone) rest := rfl
    rw [hstep]
    have hfresh2 : ∀ r2 ∈ rest, tblGet (create_record s r).records r2.id = none := by
      intro r2 hr2
      have hne2 : r2.id ≠ r.id := by
        intro he2
        exact hnotin (by rw [← he2]; exact List.mem_map_of_mem _ hr2)
      show tblGet (tblInsert s.records r.id r) r2.id = none
      rw [tblGet_insert_ne _ _ _ _ hne2]
      exact hfresh r2 (List.mem_cons_of_mem _ hr2)
    exact ih (create_record s r)
      (IndexInv_create s r hinv (hfresh r (List.mem_cons_self _ _))) hnd2 hfresh2

theorem IndexInv_replace (s : DbState) (zid : String) (rs : List DRecord)
    (hinv : IndexInv s) (hwf : opWf s (DbOp.replace zid rs)) :
    IndexInv (applyOp s (DbOp.replace zid rs)) := by
  obtain ⟨hnd, hall⟩ := hwf
  have hinv1 := IndexInv_purged s zid hinv
  have hfresh1 : ∀ r ∈ rs, tblGet ({ s with
      records := (purgeZoneRecords s.records s.records_by_zone zid).1,
      records_by_zone := (purgeZoneRecords s.records s.records_by_zone zid).2 } :
        DbState).records r.id = none :=
    fun r hr => purge_fresh s zid hinv r.id (hall r hr)
  exact IndexInv_insertFold rs
    { s with records := (purgeZoneRecords s.records s.records_by_zone zid).1,
             records_by_zone := (purgeZoneRecords s.records s.records_by_zone zid).2 }
    hinv1 hnd hfresh1

theorem IndexInv_applyOp (s : DbState) (op : DbOp) (hinv : IndexInv s)
    (hwf : opWf s op) : IndexInv (applyOp s op) := by
  cases op with
  | create r => exact IndexInv_create s r hinv hwf
  | update r => exact IndexInv_update s r hinv hwf
  | delete rid => exact IndexInv_delete s rid hinv
  | replace zid rs => exact IndexInv_replace s zid rs hinv hwf

/-- C2 counterexample: an update that renames a record leaves the
records_by_zone index pointing at the old (zone, name, type) key, so the
index invariant does not hold after arbitrary operation sequences. -/
theorem C2_counterexample :
    ¬ IndexInv (runOps emptyDb [DbOp.create rX, DbOp.update rXrenamed]) := by
  decide

/-- C2 amended: under the discipline the callers follow (fresh ids for
create, key-preserving updates, replace batches with distinct ids that
are fresh or belong to the replaced zone), every sequence of
create/update/delete/replace operations preserves the records_by_zone
index invariant: entries list exactly the stored records with their key,
each listed id resolves, and an entry vanishes with its last id. -/
theorem C2_index_invariant_amended (s : DbState) (ops : List DbOp)
    (hinv : IndexInv s) (hwf : opsWf s ops) :
    IndexInv (runOps s ops) := by
  induction ops generalizing s with
  | nil => exact hinv
  | cons op rest ih =>
    obtain ⟨h1, h2⟩ := hwf
    exact ih (applyOp s op) (IndexInv_applyOp s op hinv h1) h2

/-- C2 witness: the amended theorem applied to a concrete well-formed
sequence exercising create, update, create, delete and replace. -/
theorem C2_index_invariant_witness :
    IndexInv emptyDb ∧ opsWf emptyDb opsW ∧ IndexInv (runOps emptyDb opsW) :=
  ⟨by decide, by decide,
   C2_index_invariant_amended emptyDb opsW (by decide) (by decide)⟩

end MicroDns
